import Mathlib

/-!
# Verification of the `phylovector` codec

A shallow embedding, over `ℚ`, of the `phylovector` package: the
tree → vector encoder (`tree2vector`), the vector → tree decoder
(`vector2tree`, with its chain builder and the recursive
`pathgraph2tree` topology builder), and the canonical-Newick codec
(`parse` / `sorted_newick`).

Conventions of the embedding:
* Python floats are embedded as rational numbers; `math.sqrt` inside the
  decoder's shape validation is treated as an exact square root.
* `ete3` tree objects are embedded as the inductive type `PhyloTree`;
  the handful of `ete3` methods the package calls (`add_child`,
  `standardize`, `get_distance`, `get_common_ancestor`,
  `iter_descendants`, `get_leaf_names`, the `tree & name` search and the
  default branch length of a freshly created node) are modelled
  explicitly below, each with a comment naming the method.
* `networkx` graphs only ever hold a path (a chain of leaves built by the
  greedy chain builder), so the graph handed to `pathgraph2tree` is
  embedded as its vertex sequence together with the list of weights of
  consecutive edges; node and edge iteration order of the `networkx`
  graph coincides with the chain order (insertion order), which the
  embedding preserves.
* In-place mutation (the decoder's branch-length assignment loop, the
  encoder's padding loop) is embedded as explicit state passing.
-/

set_option maxHeartbeats 1600000
set_option maxRecDepth 16000

namespace Phylovector

/-! ## Rational-number helpers: Python `math.isclose`, `max`, `min` -/

/-- Default relative tolerance of Python `math.isclose` (`rel_tol=1e-9`). -/
def relTolDefault : ℚ := 1 / 1000000000

/-- The encoder's default absolute tolerance (`epsilon=1e-6`). -/
def epsDefault : ℚ := 1 / 1000000

/-- Python `math.isclose(a, b, abs_tol=tol)` with the default `rel_tol`:
`abs(a-b) <= max(rel_tol * max(abs(a), abs(b)), abs_tol)`. -/
def isClose (a b tol : ℚ) : Bool :=
  decide (|a - b| ≤ max (relTolDefault * max |a| |b|) tol)

/-- `[0 if math.isclose(val, 0, abs_tol=epsilon) else val for val in l]`
(the epsilon-snapping step of `tree2vector`). -/
def snapZero (tol : ℚ) (l : List ℚ) : List ℚ :=
  l.map fun v => if isClose v 0 tol then 0 else v

/-- Python `max` over a list of numbers; ties keep the first maximum.
Returns `0` on the empty list (Python would raise; callers guard it). -/
def maxQ : List ℚ → ℚ
  | [] => 0
  | x :: xs => xs.foldl (fun a b => if b > a then b else a) x

/-- Python `min(pairs, key=lambda x: x[1])`: the first pair whose second
component is minimal. Returns the default on the empty list. -/
def minBySnd (d : String × ℚ) : List (String × ℚ) → String × ℚ
  | [] => d
  | x :: xs => xs.foldl (fun a b => if b.2 < a.2 then b else a) x

/-- `itertools.combinations(l, 2)`: all unordered pairs, in lexicographic
combination order of the list. -/
def combos : List α → List (α × α)
  | [] => []
  | x :: xs => xs.map (fun y => (x, y)) ++ combos xs

/-! ## The tree data model (embedding of the `ete3` tree objects) -/

/-- Model of an `ete3` tree node: a name (empty for internal nodes in
this codec), a branch length `dist` (distance to the parent), and the
ordered list of children. A leaf is a node with no children. -/
inductive PhyloTree : Type where
  | node (name : String) (dist : ℚ) (children : List PhyloTree)
deriving Repr

namespace PhyloTree

def name : PhyloTree → String
  | .node n _ _ => n

def dist : PhyloTree → ℚ
  | .node _ d _ => d

def children : PhyloTree → List PhyloTree
  | .node _ _ cs => cs

@[simp] theorem name_node (n d cs) : (PhyloTree.node n d cs).name = n := rfl
@[simp] theorem dist_node (n d cs) : (PhyloTree.node n d cs).dist = d := rfl
@[simp] theorem children_node (n d cs) : (PhyloTree.node n d cs).children = cs := rfl

/-- Branch lengths the `ete3` library assigns to a freshly created node
(`ete3.Tree()` / `add_child(name=v)` leave `dist` at the library default
of `1.0`); these defaults are overwritten by the decoder before they can
matter for output values. -/
def defaultDist : ℚ := 1

/-- Custom induction principle for the nested inductive. -/
theorem inductT {P : PhyloTree → Prop}
    (h : ∀ n d cs, (∀ c ∈ cs, P c) → P (PhyloTree.node n d cs)) :
    ∀ t, P t
  | .node n d cs =>
    h n d cs (fun c hc => inductT h c)
termination_by t => sizeOf t
decreasing_by
  simp_wf
  have := List.sizeOf_lt_of_mem hc
  omega

/-- `ete3` `get_leaf_names()`: the names of the leaves below a node, in
left-to-right order.  A childless node is itself a leaf. -/
def leafNames : PhyloTree → List String
  | .node n _ [] => [n]
  | .node _ _ (c :: cs) => goList (c :: cs)
where goList : List PhyloTree → List String
  | [] => []
  | c :: cs => leafNames c ++ goList cs

mutual

/-- Structural equality test. -/
def beqT : PhyloTree → PhyloTree → Bool
  | .node n d cs, .node n' d' cs' =>
    decide (n = n') && decide (d = d') && beqTL cs cs'

def beqTL : List PhyloTree → List PhyloTree → Bool
  | [], [] => true
  | c :: cs, c' :: cs' => beqT c c' && beqTL cs cs'
  | _, _ => false

end

theorem beqTL_iff {cs : List PhyloTree}
    (ih : ∀ c ∈ cs, ∀ b, beqT c b = true ↔ c = b) :
    ∀ cs', beqTL cs cs' = true ↔ cs = cs' := by
  induction cs with
  | nil => intro cs'; cases cs' <;> simp [beqTL]
  | cons c cs ihl =>
    intro cs'
    cases cs' with
    | nil => simp [beqTL]
    | cons c' cs'' =>
      rw [beqTL, Bool.and_eq_true, ih c (List.mem_cons_self _ _) c',
        ihl (fun x hx b => ih x (List.mem_cons_of_mem _ hx) b) cs'']
      constructor
      · rintro ⟨rfl, rfl⟩; rfl
      · intro h; injection h with h1 h2; exact ⟨h1, h2⟩

theorem beqT_iff : ∀ a b : PhyloTree, beqT a b = true ↔ a = b := by
  intro a
  induction a using PhyloTree.inductT with
  | _ n d cs ih =>
    intro b
    cases b with
    | node n' d' cs' =>
      rw [beqT, Bool.and_eq_true, Bool.and_eq_true, decide_eq_true_eq,
        decide_eq_true_eq, beqTL_iff ih cs']
      constructor
      · rintro ⟨⟨rfl, rfl⟩, rfl⟩; rfl
      · intro h; injection h with h1 h2 h3; exact ⟨⟨h1, h2⟩, h3⟩

instance : DecidableEq PhyloTree := fun a b => decidable_of_iff _ (beqT_iff a b)

/-- Replace the branch length at the root of a subtree. -/
def withDist (t : PhyloTree) (d : ℚ) : PhyloTree :=
  .node t.name d t.children

@[simp] theorem withDist_node (n d cs d') :
    (PhyloTree.node n d cs).withDist d' = .node n d' cs := rfl

/-- `node.delete(preserve_branch_length=True)` applied to a node with
exactly one child: the child replaces the node, absorbing its branch
length (`child.dist += node.dist`). Identity on every other node. -/
def unwrapSingle : PhyloTree → PhyloTree
  | .node _ d [PhyloTree.node n' d' cs'] => .node n' (d' + d) cs'
  | t => t

/-- Modelled from the spec: `ete3`'s `tree.standardize()` as the source
uses it — "any internal node with exactly one child is replaced by that
child directly" (single-child collapsing with branch lengths preserved;
`node.delete` re-attaches the promoted child at the end of its new
parent's child list, after the remaining children). The polytomy
resolution `standardize` also performs never fires in this pipeline,
where every constructed node has at most two children. -/
def std : PhyloTree → PhyloTree
  | .node n d cs =>
    let cs' := stdList cs
    .node n d ((cs'.filter fun c => c.children.length != 1) ++
               ((cs'.filter fun c => c.children.length == 1).map unwrapSingle))
where stdList : List PhyloTree → List PhyloTree
  | [] => []
  | c :: cs => std c :: stdList cs

end PhyloTree

/-! ## pathgraph2tree (Topology Builder)

The decoder only ever passes `pathgraph2tree` a path graph: the chain of
leaves produced by the greedy chain builder.  The graph is embedded as
its vertex sequence `chain` (the `networkx` node iteration order, which
is insertion order) together with the list `ws` of weights of the
consecutive edges (the edge iteration order, also insertion order). -/

/-- `_max_edge_weight`: index of the first edge of maximum weight
(Python's `max` keeps the first maximal element). -/
def maxWIdxGo (best : ℕ) (bw : ℚ) (i : ℕ) : List ℚ → ℕ
  | [] => best
  | w :: ws => if w > bw then maxWIdxGo i w (i + 1) ws else maxWIdxGo best bw (i + 1) ws

def maxWIdx : List ℚ → ℕ
  | [] => 0
  | w :: ws => maxWIdxGo 0 w 1 ws

theorem maxWIdxGo_lt (ws : List ℚ) : ∀ (best i : ℕ) (bw : ℚ), best < i →
    maxWIdxGo best bw i ws < i + ws.length := by
  induction ws with
  | nil => intro best i bw h; simpa [maxWIdxGo] using h
  | cons w ws ih =>
    intro best i bw h
    simp only [maxWIdxGo]
    split
    · have := ih i (i + 1) w (Nat.lt_succ_self i)
      simp only [List.length_cons]
      omega
    · have := ih best (i + 1) bw (h.trans (Nat.lt_succ_self i))
      simp only [List.length_cons]
      omega

theorem maxWIdx_lt {ws : List ℚ} (h : ws ≠ []) : maxWIdx ws < ws.length := by
  match ws, h with
  | w :: ws, _ =>
    have := maxWIdxGo_lt ws 0 1 w Nat.zero_lt_one
    simpa [maxWIdx, Nat.add_comm] using this

/-- `pathgraph2tree(P)`: if at most one edge remains, attach every node
of the subgraph as a child leaf; otherwise remove the first edge of
maximum weight, recurse on the two connected components (which, for a
path, are the prefix up to the edge and the suffix after it, in node
iteration order), and attach the two subtrees.  Both branches finish
with `tree.standardize()`. -/
def pathgraph2tree (chain : List String) (ws : List ℚ) : PhyloTree :=
  if h : ws.length ≤ 1 then
    PhyloTree.std (.node "" PhyloTree.defaultDist
      (chain.map fun v => .node v PhyloTree.defaultDist []))
  else
    let i := maxWIdx ws
    have hi : i < ws.length := maxWIdx_lt (by rintro rfl; simp at h)
    let left := pathgraph2tree (chain.take (i + 1)) (ws.take i)
    let right := pathgraph2tree (chain.drop (i + 1)) (ws.drop (i + 1))
    PhyloTree.std (.node "" PhyloTree.defaultDist [left, right])
termination_by ws.length
decreasing_by
  · simp only [List.length_take]; omega
  · simp only [List.length_drop]; omega

/-! ## The chain builder (greedy nearest-neighbour path construction) -/

/-- `min([(leaf, D[cur, leaf]) for leaf in remaining], key=lambda x: x[1])`:
the first pair with minimal second component. -/
def selectNext (D : String → String → ℚ) (cur : String) (l : List String) : String × ℚ :=
  minBySnd ("", 0) (l.map fun leaf => (leaf, D cur leaf))

theorem foldl_minBySnd_mem (xs : List (String × ℚ)) :
    ∀ a : String × ℚ, xs.foldl (fun a b => if b.2 < a.2 then b else a) a ∈ a :: xs := by
  induction xs with
  | nil => intro a; simp
  | cons x xs ih =>
    intro a
    simp only [List.foldl_cons]
    rcases List.mem_cons.1 (ih (if x.2 < a.2 then x else a)) with h | h
    · rw [h]; split
      · simp
      · simp
    · simp [h]

theorem minBySnd_mem (d x : String × ℚ) (xs : List (String × ℚ)) :
    minBySnd d (x :: xs) ∈ x :: xs := by
  simpa [minBySnd] using foldl_minBySnd_mem xs x

theorem selectNext_mem (D : String → String → ℚ) (cur : String)
    {l : List String} (h : l ≠ []) : (selectNext D cur l).1 ∈ l := by
  match l, h with
  | x :: xs, _ =>
    have hm := minBySnd_mem ("", 0) (x, D cur x) (xs.map fun leaf => (leaf, D cur leaf))
    rw [selectNext]
    simp only [List.map_cons] at hm ⊢
    rcases List.mem_cons.1 hm with h | h
    · rw [h]; exact List.mem_cons_self _ _
    · rcases List.mem_map.1 h with ⟨leaf, hin, he⟩
      have : (minBySnd ("", 0) ((x, D cur x) :: xs.map fun leaf => (leaf, D cur leaf))).1
          = leaf := by rw [← he]
      rw [this]
      exact List.mem_cons_of_mem _ hin

/-- The greedy loop body: pick the remaining leaf closest to the current
chain end, emit the edge, drop the leaf (`remaining.remove`), advance. -/
def chainGo (D : String → String → ℚ) : String → List String → List (String × ℚ)
  | _, [] => []
  | cur, r :: rs =>
    let jw := selectNext D cur (r :: rs)
    jw :: chainGo D jw.1 ((r :: rs).erase jw.1)
termination_by _ remaining => remaining.length
decreasing_by
  have hmem : jw.1 ∈ r :: rs := selectNext_mem D cur (by simp)
  have := List.length_erase_of_mem hmem
  simp only [this, List.length_cons]
  omega

/-- The chain: `remaining = leaves[:]` and `leaf_i = remaining.pop()`
(the last element), then the greedy loop.  Returns the vertex sequence
and the list of weights of its consecutive edges — exactly the node and
edge insertion order of the `networkx` path graph the code builds. -/
def buildChain (D : String → String → ℚ) (leaves : List String) :
    List String × List ℚ :=
  match leaves.getLast? with
  | none => ([], [])
  | some last =>
    let steps := chainGo D last leaves.dropLast
    (last :: steps.map Prod.fst, steps.map Prod.snd)

/-! ### Graph vocabulary for the chain/path claims

Undirected graphs appear only as edge lists; these are the standard
notions (adjacency, reachability, degree) used to state that the chain
builder's output is a single connected path. -/

/-- The consecutive-pair edges of a vertex sequence. -/
def pathEdges (chain : List String) : List (String × String) :=
  chain.zip chain.tail

/-- Undirected adjacency in an edge list. -/
def Adj (E : List (String × String)) (u v : String) : Prop :=
  (u, v) ∈ E ∨ (v, u) ∈ E

/-- Undirected reachability in an edge list. -/
def Reach (E : List (String × String)) : String → String → Prop :=
  Relation.ReflTransGen (Adj E)

/-- Degree of a vertex in an edge list. -/
def degree (E : List (String × String)) (v : String) : ℕ :=
  E.countP fun e => e.1 == v || e.2 == v

mutual

/-- No node of the tree — the root included — has exactly one child. -/
def noSingleB : PhyloTree → Bool
  | .node _ _ cs => (cs.length != 1) && noSingleList cs

def noSingleList : List PhyloTree → Bool
  | [] => true
  | c :: cs => noSingleB c && noSingleList cs

end

/-! ## Navigation by path, and the in-place branch-length assignment

Nodes of a tree are addressed by their path from the root (the list of
child indices).  The decoder's loop
`for leaf in tree.iter_descendants(): ... leaf.dist = age_curr - age_anc`
mutates the tree while traversing it; it is embedded as a fold of
`visitStep` over the list of visited paths. -/

/-- Subtree at a path. -/
def getAt? : PhyloTree → List ℕ → Option PhyloTree
  | t, [] => some t
  | .node _ _ cs, i :: p =>
    match cs[i]? with
    | some c => getAt? c p
    | none => none

mutual

/-- Overwrite the `dist` of the node at a path. -/
def setDistAt : PhyloTree → List ℕ → ℚ → PhyloTree
  | t, [], d' => t.withDist d'
  | .node n d cs, i :: p, d' => .node n d (setDistList cs i p d')

def setDistList : List PhyloTree → ℕ → List ℕ → ℚ → List PhyloTree
  | [], _, _, _ => []
  | c :: cs, 0, p, d' => setDistAt c p d' :: cs
  | c :: cs, k + 1, p, d' => c :: setDistList cs k p d'

end

/-- `ete3` `tree.get_distance(node)`: cumulative branch length from the
root to the node at the given path (the root's own `dist` is excluded).
Unknown paths contribute nothing. -/
def distToAt : PhyloTree → List ℕ → ℚ
  | _, [] => 0
  | .node _ _ cs, i :: p =>
    match cs[i]? with
    | some c => c.dist + distToAt c p
    | none => 0

/-- The `node_height` computation of the decoder: collect the pairwise
heights of all pairs of descendant leaf names; `max` of the list, or `0`
when the node is a leaf (fewer than two descendant leaves). -/
def nodeHeight (D : String → String → ℚ) (t : PhyloTree) : ℚ :=
  let distances := (combos t.leafNames).map fun p => D p.1 p.2
  if distances.isEmpty then 0 else maxQ distances

/-- One iteration of the decoder's assignment loop, at the node addressed
by `p`:
`age_anc = tree.get_distance(leaf.up)`, `age_curr = root_age - node_height`,
`leaf.dist = age_curr - age_anc`.  The height is read off the current
tree (whose shape never changes); `age_anc` is read off the current
branch lengths, which is where visit order matters. -/
def visitStep (D : String → String → ℚ) (rootAge : ℚ) (t : PhyloTree)
    (p : List ℕ) : PhyloTree :=
  match getAt? t p with
  | none => t
  | some sub =>
    let h := nodeHeight D sub
    let ageAnc := distToAt t p.dropLast
    setDistAt t p ((rootAge - h) - ageAnc)

/-- The full assignment loop over a list of visited node paths. -/
def visitAssign (D : String → String → ℚ) (rootAge : ℚ)
    (order : List (List ℕ)) (t : PhyloTree) : PhyloTree :=
  order.foldl (visitStep D rootAge) t

mutual

/-- Paths of all proper descendants of the root, in preorder. -/
def descPaths : PhyloTree → List (List ℕ)
  | .node _ _ cs => descPathsList 0 cs

def descPathsList : ℕ → List PhyloTree → List (List ℕ)
  | _, [] => []
  | i, c :: cs => ([i] :: (descPaths c).map (fun p => i :: p)) ++ descPathsList (i + 1) cs

end

/-- `ete3` `iter_descendants()` visits descendants in level order
(breadth first, left to right): as a list of paths, the preorder list
stably sorted by path length. -/
def levelPaths (t : PhyloTree) : List (List ℕ) :=
  (descPaths t).insertionSort (fun p q => p.length ≤ q.length)

/-! ### Reference material for the assignment loop

`zeroDists` erases branch lengths (two trees with equal erasures share
their shape and names, hence their leaf lists and heights);
`assignStruct` is the assignment loop written as a structural recursion,
the reference point for the traversal-order analysis of claim C4. -/

mutual

/-- The tree with every branch length replaced by `0`: its equality
captures "same shape and names". -/
def zeroDists : PhyloTree → PhyloTree
  | .node n _ cs => .node n 0 (zeroDistsList cs)

def zeroDistsList : List PhyloTree → List PhyloTree
  | [] => []
  | c :: cs => zeroDists c :: zeroDistsList cs

end

/-- The height the decoder computes at the node addressed by `p` (`0` off
the tree). -/
def hAt (D : String → String → ℚ) (t : PhyloTree) (p : List ℕ) : ℚ :=
  match getAt? t p with
  | some s => nodeHeight D s
  | none => 0

/-- The branch length the decoder's loop settles on at a non-root node
`p` once every ancestor has been visited:
`(root_age - node_height) - age_anc` with `age_anc` telescoping to
`root_age - node_height(parent)`. -/
def finalDist (D : String → String → ℚ) (ra : ℚ) (t0 : PhyloTree)
    (p : List ℕ) : ℚ :=
  (ra - hAt D t0 p) - (if p.dropLast = [] then 0 else ra - hAt D t0 p.dropLast)

mutual

/-- The assignment loop as a structural top-down recursion: every child
receives `(root_age - its height) - age_anc`, and the recursion descends
with the child's own cumulative age `root_age - its height`. -/
def assignStruct (D : String → String → ℚ) (ra : ℚ) : ℚ → PhyloTree → PhyloTree
  | _, .node n d [] => .node n d []
  | ageAnc, .node n d (c :: cs) => .node n d (assignStructList D ra ageAnc (c :: cs))

def assignStructList (D : String → String → ℚ) (ra : ℚ) :
    ℚ → List PhyloTree → List PhyloTree
  | _, [] => []
  | ageAnc, c :: cs =>
    (assignStruct D ra (ra - nodeHeight D c) c).withDist
        ((ra - nodeHeight D c) - ageAnc) ::
      assignStructList D ra ageAnc cs

end

/-- A visit order is ancestor-first when no element is a proper prefix
(an ancestor) of an element placed before it. -/
def ancestorFirst (order : List (List ℕ)) : Prop :=
  order.Pairwise fun p q => ¬(q ≠ p ∧ q <+: p)

instance decAncestorFirst (order : List (List ℕ)) : Decidable (ancestorFirst order) :=
  inferInstanceAs (Decidable (order.Pairwise _))

mutual

/-- `tree & name` followed by `node.dist += δ`: add `δ` to the branch
length of the first node carrying the given name (leaf names are unique
in this codec, so at most one node matches).  Returns the tree and
whether a node was found. -/
def shiftAtName : PhyloTree → String → ℚ → PhyloTree × Bool
  | .node n d cs, target, δ =>
    if n = target then (.node n (d + δ) cs, true)
    else
      let r := shiftList cs target δ
      (.node n d r.1, r.2)

def shiftList : List PhyloTree → String → ℚ → List PhyloTree × Bool
  | [], _, _ => ([], false)
  | c :: cs, target, δ =>
    let r := shiftAtName c target δ
    if r.2 then (r.1 :: cs, true)
    else
      let rs := shiftList cs target δ
      (c :: rs.1, rs.2)

end

mutual

/-- Path (from the root) of the first node carrying a name, in preorder;
used to model `ete3`'s node search by name (`tree & name`,
`get_distance(tree, name)`, `get_common_ancestor`) — unique leaf names
make the traversal order immaterial. -/
def pathToName? : PhyloTree → String → Option (List ℕ)
  | .node n _ cs, target =>
    if n = target then some [] else pathList cs 0 target

def pathList : List PhyloTree → ℕ → String → Option (List ℕ)
  | [], _, _ => none
  | c :: cs, i, target =>
    match pathToName? c target with
    | some p => some (i :: p)
    | none => pathList cs (i + 1) target

end

/-- `tree.get_distance(tree, leaf)` with `leaf` a name: cumulative branch
length from the root to the node of that name. -/
def distToName (t : PhyloTree) (target : String) : ℚ :=
  match pathToName? t target with
  | some p => distToAt t p
  | none => 0

/-- Length of the longest common prefix of two paths. -/
def commonPrefixLen : List ℕ → List ℕ → ℕ
  | i :: p, j :: q => if i = j then commonPrefixLen p q + 1 else 0
  | _, _ => 0

/-- `comm_anc = tree.get_common_ancestor(a, b)` followed by
`tree.get_distance(comm_anc, a)`: the distance from the most recent
common ancestor of the two named nodes down to the first of them. -/
def mrcaDepthDist (t : PhyloTree) (a b : String) : ℚ :=
  match pathToName? t a, pathToName? t b with
  | some pa, some pb => distToAt t pa - distToAt t (pa.take (commonPrefixLen pa pb))
  | _, _ => 0

/-! ## vector2tree (the decoder) -/

/-- The two failure modes of `vector2tree` (both `ValueError` in the
source, with distinct messages). -/
inductive PVError : Type where
  | invalidShape
  | leafCountMismatch
deriving DecidableEq, Repr

/-- `num_leaves = (math.sqrt(8*l+1)-1)/2`, the integrality test and the
`>= 2` test, with `math.sqrt` idealized as an exact square root (`8l+1`
is odd, so integrality of `num_leaves` is exactly `8l+1` being a perfect
square). -/
def impliedLeaves (L : ℕ) : Option ℕ :=
  let s := Nat.sqrt (8 * L + 1)
  if s * s = 8 * L + 1 ∧ 2 ≤ (s - 1) / 2 then some ((s - 1) / 2) else none

/-- The `leaf_distances` dictionary: one entry per unordered pair of
leaves, in combination order, with the weight stored in both directions;
the weight of pair number `idx` is `vector[idx + num_leaves]`. -/
def leafDistances (leaves : List String) (tail : List ℚ) :
    List ((String × String) × ℚ) :=
  ((combos leaves).zip tail).foldr
    (fun pw acc => ((pw.1.1, pw.1.2), pw.2) :: ((pw.1.2, pw.1.1), pw.2) :: acc) []

/-- Dictionary lookup (`leaf_distances[i, j]`); the keys the decoder asks
for are always present, missing keys default to `0`. -/
def lookupD (assoc : List ((String × String) × ℚ)) (a b : String) : ℚ :=
  match assoc.find? (fun e => e.1 == (a, b)) with
  | some e => e.2
  | none => 0

/-- The decoder after validation: build the pairwise-height dictionary,
the greedy chain, the topology (`pathgraph2tree`), assign branch lengths
in level order, then subtract the per-leaf padding
(`tree_node.dist -= vector[leaf_idx]`). -/
def decodeCore (vector : List ℚ) (n : ℕ) (leaves : List String) : PhyloTree :=
  let assoc := leafDistances leaves (vector.drop n)
  let D := lookupD assoc
  let chain := buildChain D leaves
  let tree := pathgraph2tree chain.1 chain.2
  let rootAge := maxQ (assoc.map Prod.snd)
  let t1 := visitAssign D rootAge (levelPaths tree) tree
  (leaves.zip (vector.take n)).foldl
    (fun t pr => (shiftAtName t pr.1 (-pr.2)).1) t1

/-- `vector2tree(vector, leaves)`.  `leaves = None` and `leaves = []` are
both falsy in `if not leaves:`, triggering the synthetic
`Leaf_0..Leaf_{n-1}` names; otherwise the list length must match. -/
def vector2tree (vector : List ℚ) (leaves? : Option (List String)) :
    Except PVError PhyloTree :=
  match impliedLeaves vector.length with
  | none => .error .invalidShape
  | some n =>
    let given := leaves?.getD []
    if given.isEmpty then
      .ok (decodeCore vector n ((List.range n).map fun i => ("Leaf_") ++ i.repr))
    else if given.length ≠ n then .error .leafCountMismatch
    else .ok (decodeCore vector n given)

/-! ## tree2vector (the encoder)

The encoder's in-place padding happens on a working tree rebuilt from the
Newick serialization of the source (`tree = ete3.Tree(source_tree.write())`),
never on the caller's tree; the embedding keeps both objects in an
explicit state. -/

structure EncSt : Type where
  source : PhyloTree
  work : PhyloTree

/-- `ete3.Tree(source_tree.write())`: rebuild a tree from the Newick
serialization of the source.  Over exact rationals the write/parse round
trip reproduces the tree value (the library's float formatting is
idealized as exact), so the working copy is value-equal to — but a
different object from — the source. -/
def copyViaNewick (t : PhyloTree) : PhyloTree := t

/-- The body of `tree2vector(source_tree, epsilon)`: returns the final
state (caller's tree and working tree) together with the two snapped
segments `(lengths, ultrametric)`. -/
def tree2vectorSt (source : PhyloTree) (epsilon : ℚ) :
    EncSt × (List ℚ × List ℚ) :=
  let st0 : EncSt := { source := source, work := copyViaNewick source }
  let leaves := (st0.work.leafNames).insertionSort (fun a b => a ≤ b)
  let rootAge := maxQ (leaves.map fun leaf => distToName st0.work leaf)
  let step := fun (acc : EncSt × List ℚ) (leaf : String) =>
    let diff := rootAge - distToName acc.1.work leaf
    (⟨acc.1.source, (shiftAtName acc.1.work leaf diff).1⟩, diff :: acc.2)
  let padded := leaves.foldl step (st0, [])
  let lengths := padded.2.reverse
  let ultrametric := (combos leaves).map fun p => mrcaDepthDist padded.1.work p.1 p.2
  (padded.1, (snapZero epsilon lengths, snapZero epsilon ultrametric))

/-- `tree2vector(source_tree)` with the default `epsilon=1e-6` and
`components=False`: the concatenated vector `lengths + ultrametric`. -/
def tree2vector (source : PhyloTree) : List ℚ :=
  let r := tree2vectorSt source epsDefault
  r.2.1 ++ r.2.2

/-! ## The Newick codec (`newick.py`)

`parse` tokenizes with the regular expression
`([^:;,()\s]*)(?:\s*:\s*([\d.]+)\s*)?([,);])|(\S)` and recursively builds
node records `{id, name, length, parentid, children}`; `sorted_newick`
sorts each node's children by name (Python's `sorted`, a stable sort) and
serializes depth first, printing `name:length` at leaves only. -/

/-- The parser's node records. -/
inductive PNode : Type where
  | mk (id : ℤ) (name : String) (length : Option ℚ) (parentid : ℤ)
      (children : List PNode)
deriving Repr

namespace PNode

def name : PNode → String
  | .mk _ n _ _ _ => n

def length : PNode → Option ℚ
  | .mk _ _ l _ _ => l

def children : PNode → List PNode
  | .mk _ _ _ _ cs => cs

@[simp] theorem name_mk (i n l p cs) : (PNode.mk i n l p cs).name = n := rfl
@[simp] theorem length_mk (i n l p cs) : (PNode.mk i n l p cs).length = l := rfl
@[simp] theorem children_mk (i n l p cs) : (PNode.mk i n l p cs).children = cs := rfl

/-- Custom induction principle for the nested inductive. -/
theorem inductP {P : PNode → Prop}
    (h : ∀ i n l p cs, (∀ c ∈ cs, P c) → P (PNode.mk i n l p cs)) :
    ∀ t, P t
  | .mk i n l p cs =>
    h i n l p cs (fun c hc => inductP h c)
termination_by t => sizeOf t
decreasing_by
  simp_wf
  have := List.sizeOf_lt_of_mem hc
  omega

mutual

/-- Structural equality test. -/
def beqP : PNode → PNode → Bool
  | .mk i n l p cs, .mk i' n' l' p' cs' =>
    decide (i = i') && decide (n = n') && decide (l = l') && decide (p = p') &&
      beqPL cs cs'

def beqPL : List PNode → List PNode → Bool
  | [], [] => true
  | c :: cs, c' :: cs' => beqP c c' && beqPL cs cs'
  | _, _ => false

end

theorem beqPL_iff {cs : List PNode}
    (ih : ∀ c ∈ cs, ∀ b, beqP c b = true ↔ c = b) :
    ∀ cs', beqPL cs cs' = true ↔ cs = cs' := by
  induction cs with
  | nil => intro cs'; cases cs' <;> simp [beqPL]
  | cons c cs ihl =>
    intro cs'
    cases cs' with
    | nil => simp [beqPL]
    | cons c' cs'' =>
      rw [beqPL, Bool.and_eq_true, ih c (List.mem_cons_self _ _) c',
        ihl (fun x hx b => ih x (List.mem_cons_of_mem _ hx) b) cs'']
      constructor
      · rintro ⟨rfl, rfl⟩; rfl
      · intro h; injection h with h1 h2; exact ⟨h1, h2⟩

theorem beqP_iff : ∀ a b : PNode, beqP a b = true ↔ a = b := by
  intro a
  induction a using PNode.inductP with
  | _ i n l p cs ih =>
    intro b
    cases b with
    | mk i' n' l' p' cs' =>
      rw [beqP, Bool.and_eq_true, Bool.and_eq_true, Bool.and_eq_true,
        Bool.and_eq_true, decide_eq_true_eq, decide_eq_true_eq,
        decide_eq_true_eq, decide_eq_true_eq, beqPL_iff ih cs']
      constructor
      · rintro ⟨⟨⟨⟨rfl, rfl⟩, rfl⟩, rfl⟩, rfl⟩; rfl
      · intro h
        injection h with h1 h2 h3 h4 h5
        exact ⟨⟨⟨⟨h1, h2⟩, h3⟩, h4⟩, h5⟩

instance : DecidableEq PNode := fun a b => decidable_of_iff _ (beqP_iff a b)

end PNode

/-- Value of a run of decimal digits. -/
def digitsToNat (s : List Char) : ℕ :=
  s.foldl (fun a c => 10 * a + (c.toNat - 48)) 0

/-- Python `float(s)` on a token matched by `[\d.]+`: digits with at most
one decimal point (`"1"`, `"1."`, `".5"`, `"2.25"`); anything else — for
example a second point — raises, embedded as `none`. -/
def parseFloat? (s : List Char) : Option ℚ :=
  if s.isEmpty then none
  else
    let ip := s.takeWhile Char.isDigit
    match s.drop ip.length with
    | [] => some (digitsToNat ip)
    | '.' :: fp =>
      if fp.all Char.isDigit then
        some ((digitsToNat ip : ℚ) + (digitsToNat fp : ℚ) / ((10 : ℚ) ^ fp.length))
      else none
    | _ => none

/-- Tokens of the regular expression: either a full
`name (":" length)? delim` match (alternative 1) or a lone non-space
character (alternative 2, `(\S)`). -/
inductive NTok : Type where
  | nd (name : String) (lenStr : Option (List Char)) (delim : Char)
  | ch (c : Char)
deriving Repr

/-- Characters allowed in a name: the class `[^:;,()\s]`. -/
def isNameChar (c : Char) : Bool :=
  c != ':' && c != ';' && c != ',' && c != '(' && c != ')' && !c.isWhitespace

/-- The delimiter class `[,);]`. -/
def isNwkDelim (c : Char) : Bool :=
  c == ',' || c == ')' || c == ';'

/-- Alternative 1 of the token regular expression at the current
position: a (possibly empty) greedy name, an optional
`\s* ":" \s* [\d.]+ \s*` length group (dropped again — regex
backtracking — if no delimiter follows it), then a mandatory delimiter. -/
def tryTok1 (l : List Char) : Option (NTok × List Char) :=
  let nm := l.takeWhile isNameChar
  let r1 := l.drop nm.length
  let withLen : Option (List Char × List Char) :=
    match r1.dropWhile Char.isWhitespace with
    | ':' :: r3 =>
      let r4 := r3.dropWhile Char.isWhitespace
      let ds := r4.takeWhile fun c => c.isDigit || c == '.'
      if ds.isEmpty then none
      else some (ds, (r4.drop ds.length).dropWhile Char.isWhitespace)
    | _ => none
  match withLen with
  | some (ds, d :: rest) =>
    if isNwkDelim d then some (.nd (String.mk nm) (some ds) d, rest)
    else
      match r1 with
      | d' :: rest' => if isNwkDelim d' then some (.nd (String.mk nm) none d', rest') else none
      | [] => none
  | _ =>
    match r1 with
    | d' :: rest' => if isNwkDelim d' then some (.nd (String.mk nm) none d', rest') else none
    | [] => none

/-- `re.finditer`: scan left to right, emitting a token where the
expression matches and skipping one character where it does not
(whitespace leaves no token, any other character becomes an
alternative-2 token).  Fuel-indexed; one character at least is consumed
per step, so `l.length` fuel suffices. -/
def tokenizeF : ℕ → List Char → List NTok
  | 0, _ => []
  | _, [] => []
  | fuel + 1, c :: rest =>
    match tryTok1 (c :: rest) with
    | some (t, rest') => t :: tokenizeF fuel rest'
    | none => if c.isWhitespace then tokenizeF fuel rest else .ch c :: tokenizeF fuel rest

def tokenize (l : List Char) : List NTok := tokenizeF l.length l

mutual

/-- `recurse(nextid, parentid)`: one node.  A `"("` character token opens
a child loop; otherwise (and after the loop) the node's own
name/length/delimiter token is consumed.  Returns the node, the
delimiter that followed it, and the id counter.  `none` models the
exceptions the Python code can raise on malformed input (`StopIteration`,
`float` failure, a stray character token). -/
def recurseP : ℕ → List NTok → ℤ → ℤ → Option (PNode × Char × ℤ × List NTok)
  | 0, _, _, _ => none
  | fuel + 1, toks, nextid, parentid =>
    match toks with
    | [] => none
    | .ch c :: rest =>
      if c = '(' then
        match childLoop fuel rest nextid nextid with
        | none => none
        | some (cs, nextid', rest') =>
          match rest' with
          | .nd nm lenStr delim :: rest'' =>
            match lenStr with
            | none => some (.mk nextid nm none parentid cs, delim, nextid', rest'')
            | some ds =>
              match parseFloat? ds with
              | some q => some (.mk nextid nm (some q) parentid cs, delim, nextid', rest'')
              | none => none
          | _ => none
      else none
    | .nd nm lenStr delim :: rest =>
      match lenStr with
      | none => some (.mk nextid nm none parentid [], delim, nextid, rest)
      | some ds =>
        match parseFloat? ds with
        | some q => some (.mk nextid nm (some q) parentid [], delim, nextid, rest)
        | none => none

/-- The `while ch in "(,":` child loop: each iteration parses one child
with `recurse(nextid + 1, thisid)` and continues while the returned
delimiter stays in `"(,"`. -/
def childLoop : ℕ → List NTok → ℤ → ℤ → Option (List PNode × ℤ × List NTok)
  | 0, _, _, _ => none
  | fuel + 1, toks, nextid, thisid =>
    match recurseP fuel toks (nextid + 1) thisid with
    | none => none
    | some (node, delim, nextid', rest) =>
      if delim = ',' ∨ delim = '(' then
        match childLoop fuel rest nextid' thisid with
        | none => none
        | some (nodes, nextid'', rest') => some (node :: nodes, nextid'', rest')
      else some ([node], nextid', rest)

end

/-- `parse(newick)`: tokenize `newick + ";"` and run `recurse(0, -1)`. -/
def parseNwk (s : String) : Option PNode :=
  let toks := tokenize (s ++ (";")).data
  match recurseP (2 * toks.length + 2) toks 0 (-1) with
  | some r => some r.1
  | none => none

/-! ### `sorted_newick`: canonical serialization -/

/-- Python's `sorted(children, key=lambda n: n["name"])` is a stable
sort; `List.insertionSort` (insert before the first element that is not
strictly smaller, built right to left) is stable for the same total
preorder, so the two agree element for element. -/
def sortByName (cs : List PNode) : List PNode :=
  cs.insertionSort fun a b => a.name ≤ b.name

mutual

/-- `mysort`: recursively sort every node's children by name, in
memory. -/
def mysort : PNode → PNode
  | .mk i n l p cs => .mk i n l p (sortByName (mysortList cs))

def mysortList : List PNode → List PNode
  | [] => []
  | c :: cs => mysort c :: mysortList cs

end

/-- Decimal exponent: the least `k ≤ 40` with `q * 10 ^ k` integral. -/
def decExp (q : ℚ) : Option ℕ :=
  (List.range 41).find? fun k => (q * (10 : ℚ) ^ k).den == 1

/-- Left-pad a digit string to a width with zeros. -/
def padDigits (w : ℕ) (s : String) : String :=
  String.mk (List.replicate (w - s.length) '0') ++ s

/-- Python `str` of a float holding a (short) terminating decimal value:
`str(2.0) = "2.0"`, `str(1.5) = "1.5"`, `str(0.1) = "0.1"`.  Floats are
idealized as exact rationals; every length the codec prints has a short
decimal expansion. -/
def pyFloatRepr (q : ℚ) : String :=
  let sign := if q < 0 then ("-") else ("")
  let aq := |q|
  match decExp aq with
  | some 0 => sign ++ aq.num.natAbs.repr ++ (".0")
  | some k =>
    let scaled := (aq * (10 : ℚ) ^ k).num.natAbs
    sign ++ (scaled / 10 ^ k).repr ++ (".") ++ padDigits k ((scaled % 10 ^ k).repr)
  | none => sign ++ aq.num.natAbs.repr ++ ("/") ++ aq.den.repr

/-- `f"{node['name']}:{node['length']}"` at a leaf; `length` is a float
or `None`. -/
def pyLenStr : Option ℚ → String
  | none => ("None")
  | some q => pyFloatRepr q

mutual

/-- `myout`: leaves print `name:length`; an internal node prints its
children in parentheses, joined by commas (its own name and length are
dropped). -/
def myout : PNode → String
  | .mk _ n l _ [] => n ++ (":") ++ pyLenStr l
  | .mk _ _ _ _ (c :: cs) => ("(") ++ String.intercalate (",") (myoutList (c :: cs)) ++ (")")

def myoutList : List PNode → List String
  | [] => []
  | c :: cs => myout c :: myoutList cs

end

/-- `sorted_newick(tree)`: parse, sort in memory, serialize, append
`";"`; `none` models the exceptions malformed input raises. -/
def sortedNewick (s : String) : Option String :=
  match parseNwk s with
  | some p => some (myout (mysort p) ++ (";"))
  | none => none

/-! ### Canonical Newick of a tree value, and order-insensitive equality -/

mutual

/-- `ete3` `t.write(format=1)` followed by `parse`: names, branch lengths
and child order survive the round trip (float formatting idealized as
exact); the parser's ids play no role in `sorted_newick`'s output and
are set to `0`. -/
def toPNode : PhyloTree → PNode
  | .node n d cs => .mk 0 n (some d) 0 (toPNodeList cs)

def toPNodeList : List PhyloTree → List PNode
  | [] => []
  | c :: cs => toPNode c :: toPNodeList cs

end

/-- The root carries no branch length in the Newick serialization, so its
parsed `length` is `None`. -/
def writeParse (t : PhyloTree) : PNode :=
  match toPNode t with
  | .mk i n _ p cs => .mk i n none p cs

/-- The canonical Newick form of a tree value:
`sorted_newick(t.write(format=1))`. -/
def canonicalPV (t : PhyloTree) : String :=
  myout (mysort (writeParse t)) ++ (";")

/-- Injective rendering of a rational, for serialization keys. -/
def ratKey (q : ℚ) : String :=
  q.num.repr ++ ("/") ++ q.den.repr

mutual

/-- A full serialization of a tree value (name, branch length and
children, in order); two trees are equal exactly when their
serializations are. -/
def serTree : PhyloTree → String
  | .node n d cs =>
    ("N(") ++ n ++ ("|") ++ ratKey d ++ ("|") ++
      String.intercalate (",") (serTreeList cs) ++ (")")

def serTreeList : List PhyloTree → List String
  | [] => []
  | c :: cs => serTree c :: serTreeList cs

end

mutual

/-- Recursively order every node's children by their full serialization:
a canonical representative of a tree value under arbitrary permutation
of children at every node.  Two trees are the same unordered tree exactly
when their `fullSortPV` images coincide. -/
def fullSortPV : PhyloTree → PhyloTree
  | .node n d cs =>
    .node n d ((fullSortList cs).insertionSort fun a b => serTree a ≤ serTree b)

def fullSortList : List PhyloTree → List PhyloTree
  | [] => []
  | c :: cs => fullSortPV c :: fullSortList cs

end

/-- Equality of tree values up to recursively permuting children. -/
def sameUnordered (a b : PhyloTree) : Prop :=
  serTree (fullSortPV a) = serTree (fullSortPV b)

/-- Serialization key of an optional branch length. -/
def optRatKey : Option ℚ → String
  | none => ("-")
  | some q => ratKey q

mutual

/-- A full serialization of a parsed node's observable content — name,
length and children in order; the parser-bookkeeping `id` and `parentid`
fields are omitted. -/
def serP : PNode → String
  | .mk _ n l _ cs =>
    ("P(") ++ n ++ ("|") ++ optRatKey l ++ ("|") ++
      String.intercalate (",") (serPList cs) ++ (")")

def serPList : List PNode → List String
  | [] => []
  | c :: cs => serP c :: serPList cs

end

mutual

/-- Canonical representative of a parsed node under arbitrary
permutation of every node's children: ids are zeroed and each node's
children are ordered by their full serialization.  Two parses describe
the same tree up to child order exactly when their `normP` images
coincide. -/
def normP : PNode → PNode
  | .mk _ n l _ cs =>
    .mk 0 n l 0 ((normPList cs).insertionSort fun a b => serP a ≤ serP b)

def normPList : List PNode → List PNode
  | [] => []
  | c :: cs => normP c :: normPList cs

end

mutual

/-- Every node's children carry pairwise-distinct names. -/
def childNamesNodupB : PNode → Bool
  | .mk _ _ _ _ cs => decide (cs.map PNode.name).Nodup && childNamesNodupAll cs

def childNamesNodupAll : List PNode → Bool
  | [] => true
  | c :: cs => childNamesNodupB c && childNamesNodupAll cs

end

/-! ## Shape validation (claims C2, C3, C10) -/

/-- A vector length is accepted exactly when it is a triangular-style
number `n (n + 1) / 2` for an integer `n ≥ 2`. -/
theorem impliedLeaves_of_tri {L n : ℕ} (h2 : 2 ≤ n) (hL : 2 * L = n * (n + 1)) :
    impliedLeaves L = some n := by
  have h81 : 8 * L + 1 = (2 * n + 1) * (2 * n + 1) := by nlinarith
  have hs : Nat.sqrt (8 * L + 1) = 2 * n + 1 := by rw [h81, Nat.sqrt_eq]
  simp only [impliedLeaves, hs]
  rw [if_pos]
  · congr 1
    omega
  · exact ⟨h81.symm, by omega⟩

theorem tri_of_impliedLeaves {L n : ℕ} (h : impliedLeaves L = some n) :
    2 ≤ n ∧ 2 * L = n * (n + 1) := by
  simp only [impliedLeaves] at h
  split at h
  · rename_i hcond
    obtain ⟨hsq, h2⟩ := hcond
    obtain rfl : (Nat.sqrt (8 * L + 1) - 1) / 2 = n := by injection h
    rcases Nat.even_or_odd (Nat.sqrt (8 * L + 1)) with ⟨k, hk⟩ | ⟨k, hk⟩
    · exfalso
      have h4 : (k + k) * (k + k) = 4 * (k * k) := by ring
      rw [hk, h4] at hsq
      omega
    · have h4 : (2 * k + 1) * (2 * k + 1) = 4 * (k * k) + 4 * k + 1 := by ring
      rw [hk, h4] at hsq
      have hkn : (2 * k + 1 - 1) / 2 = k := by omega
      rw [hk, hkn] at h2 ⊢
      have : 2 * L = k * k + k := by omega
      constructor
      · exact h2
      · rw [this]; ring
  · exact absurd h (by simp)

/-- C2.  Shape validation: `vector2tree` fails with the invalid-shape
error exactly on vector lengths that are not of the form `n (n + 1) / 2`
for an integer `n ≥ 2`; on valid lengths it never reports the
invalid-shape error. -/
theorem claim_C2_shape_validation (v : List ℚ) (names : Option (List String)) :
    ((¬ ∃ n : ℕ, 2 ≤ n ∧ 2 * v.length = n * (n + 1)) →
      vector2tree v names = .error .invalidShape) ∧
    ((∃ n : ℕ, 2 ≤ n ∧ 2 * v.length = n * (n + 1)) →
      vector2tree v names ≠ .error .invalidShape) := by
  constructor
  · intro hno
    have : impliedLeaves v.length = none := by
      cases him : impliedLeaves v.length with
      | none => rfl
      | some n => exact absurd ⟨n, tri_of_impliedLeaves him⟩ hno
    simp [vector2tree, this]
  · rintro ⟨n, h2, htri⟩
    rw [vector2tree, impliedLeaves_of_tri h2 htri]
    dsimp only
    split
    · simp
    · split <;> simp

/-- C2 witness: lengths 0, 4 and 7 are rejected with the invalid-shape
error; length 15 (`n = 5`) is not. -/
theorem claim_C2_shape_validation_witness :
    vector2tree [] none = .error .invalidShape ∧
    vector2tree (List.replicate 4 0) none = .error .invalidShape ∧
    vector2tree (List.replicate 7 0) none = .error .invalidShape ∧
    vector2tree (List.replicate 15 0) none ≠ .error .invalidShape := by
  refine ⟨?_, ?_, ?_, ?_⟩
  · exact (claim_C2_shape_validation [] none).1
      (by rintro ⟨n, h2, h⟩; simp at h; nlinarith)
  · exact (claim_C2_shape_validation (List.replicate 4 0) none).1
      (by rintro ⟨n, h2, h⟩; simp at h
          have hub : n ≤ 8 := by nlinarith
          interval_cases n <;> omega)
  · exact (claim_C2_shape_validation (List.replicate 7 0) none).1
      (by rintro ⟨n, h2, h⟩; simp at h
          have hub : n ≤ 14 := by nlinarith
          interval_cases n <;> omega)
  · exact (claim_C2_shape_validation (List.replicate 15 0) none).2
      ⟨5, by norm_num, by simp⟩

/-- C3.  Cardinality validation: on a vector of valid triangular length
for `n ≥ 2` leaves, a supplied (non-empty) leaf-name list whose length
differs from `n` makes `vector2tree` fail with the leaf-count-mismatch
error. -/
theorem claim_C3_cardinality_validation (v : List ℚ) (names : List String)
    (n : ℕ) (h2 : 2 ≤ n) (htri : 2 * v.length = n * (n + 1))
    (hne : names ≠ []) (hlen : names.length ≠ n) :
    vector2tree v (some names) = .error .leafCountMismatch := by
  rw [vector2tree, impliedLeaves_of_tri h2 htri]
  dsimp only [Option.getD_some]
  rw [if_neg (by simpa using hne), if_pos hlen]

/-- C3 witness: a length-15 vector with 4 names fails (5 expected). -/
theorem claim_C3_cardinality_validation_witness :
    vector2tree (List.replicate 15 0) (some ["a", "b", "c", "d"]) =
      .error .leafCountMismatch :=
  claim_C3_cardinality_validation (List.replicate 15 0) ["a", "b", "c", "d"] 5
    (by norm_num) (by simp) (by simp) (by simp)

/-- C10.  An empty leaf-name list is treated exactly like passing no
list: the call never reports a leaf-count mismatch, and on a valid
vector length for `n` leaves it decodes with the synthetic names
`Leaf_0 .. Leaf_{n-1}`. -/
theorem claim_C10_empty_names (v : List ℚ) :
    vector2tree v (some []) = vector2tree v none ∧
    vector2tree v (some []) ≠ .error .leafCountMismatch ∧
    (∀ n : ℕ, 2 ≤ n → 2 * v.length = n * (n + 1) →
      vector2tree v (some []) =
        .ok (decodeCore v n ((List.range n).map fun i => ("Leaf_") ++ i.repr))) := by
  refine ⟨rfl, ?_, ?_⟩
  · rw [vector2tree]
    cases impliedLeaves v.length with
    | none => simp
    | some n => simp
  · intro n h2 htri
    rw [vector2tree, impliedLeaves_of_tri h2 htri]
    rfl

/-- C10 witness: at a valid length-6 vector (`n = 3`), the empty list
behaves as no list and the synthetic names are used. -/
theorem claim_C10_empty_names_witness :
    vector2tree (List.replicate 6 0) (some []) = vector2tree (List.replicate 6 0) none ∧
    vector2tree (List.replicate 6 0) (some []) =
      .ok (decodeCore (List.replicate 6 0) 3
        ((List.range 3).map fun i => ("Leaf_") ++ i.repr)) :=
  ⟨(claim_C10_empty_names (List.replicate 6 0)).1,
   (claim_C10_empty_names (List.replicate 6 0)).2.2 3 (by norm_num) (by simp)⟩

/-! ## The encoder does not mutate its input (claim C9) -/

theorem foldl_source_invariant (rootAge : ℚ) (l : List String) :
    ∀ (st : EncSt) (acc : List ℚ),
      (l.foldl
        (fun (acc : EncSt × List ℚ) (leaf : String) =>
          let diff := rootAge - distToName acc.1.work leaf
          (⟨acc.1.source, (shiftAtName acc.1.work leaf diff).1⟩, diff :: acc.2))
        (st, acc)).1.source = st.source := by
  induction l with
  | nil => intro st acc; rfl
  | cons leaf rest ih => intro st acc; exact ih _ _

/-- C9.  Frame property of the encoder: `tree2vector` operates on a
working copy rebuilt from the source's Newick serialization, and every
mutation of the padding loop is addressed to the working tree, so the
caller-supplied tree in the final state is the unchanged input. -/
theorem claim_C9_encoder_frame (t : PhyloTree) (ε : ℚ) :
    (tree2vectorSt t ε).1.source = t := by
  rw [tree2vectorSt]
  exact foldl_source_invariant _ _ _ _

/-! ## Epsilon snapping (claim C7) -/

/-- Entries surviving the snap are farther than the absolute tolerance
from zero (the relative-tolerance arm of `math.isclose` can only widen
the acceptance region). -/
theorem mem_snapZero_small_eq_zero {tol v : ℚ} {l : List ℚ}
    (hv : v ∈ snapZero tol l) (hsmall : |v| ≤ tol) : v = 0 := by
  rcases List.mem_map.1 hv with ⟨x, _, hx⟩
  by_cases hc : isClose x 0 tol = true
  · rw [← hx, if_pos hc]
  · rw [← hx, if_neg hc] at hsmall ⊢
    exfalso
    apply hc
    simp only [isClose, decide_eq_true_eq]
    calc |x - 0| = |x| := by rw [sub_zero]
    _ ≤ tol := hsmall
    _ ≤ max (relTolDefault * max |x| |0|) tol := le_max_right _ _

/-- C7.  Epsilon snapping: every entry of the encoder's output vector —
in the leaf-padding segment and in the pairwise-height segment alike —
that lies within `1e-6` of zero is exactly `0`; and the two-leaf tree
`(A:1, B:1 - 1e-9)`, whose computed padding for `B` is `1e-9`, encodes
to the vector `[0, 0, 1]` with that entry snapped to exactly `0`. -/
theorem claim_C7_epsilon_snapping :
    (∀ (t : PhyloTree) (v : ℚ), v ∈ tree2vector t → |v| ≤ epsDefault → v = 0) ∧
    tree2vector (.node "" 0
      [.node "A" 1 [], .node "B" (1 - 1 / 1000000000) []]) = [0, 0, 1] := by
  constructor
  · intro t v hv hsmall
    rcases List.mem_append.1 hv with h | h
    · exact mem_snapZero_small_eq_zero h hsmall
    · exact mem_snapZero_small_eq_zero h hsmall
  · with_unfolding_all decide

/-! ## The round-trip law at its failing input (claim C1) -/

instance {ε α : Type} [DecidableEq ε] [DecidableEq α] : DecidableEq (Except ε α) :=
  fun a b =>
    match a, b with
    | .ok x, .ok y => decidable_of_iff (x = y) (by simp)
    | .error e, .error f => decidable_of_iff (e = f) (by simp)
    | .ok _, .error _ => isFalse (by simp)
    | .error _, .ok _ => isFalse (by simp)

/-- C1.  The round-trip law fails on the code at the ultrametric 4-leaf
tree `T = ((A:2,B:2):1,(C:2,D:2):1);` (root branch length immaterial):
decoding `tree2vector T` with the sorted leaf list yields a tree that
is the *same unordered tree* as `T` (last conjunct), but its canonical
Newick form is `((C:2.0,D:2.0),(A:2.0,B:2.0));` while `T`'s is
`((A:2.0,B:2.0),(C:2.0,D:2.0));`: the canonicalization sorts siblings by
the `name` field, internal nodes all carry the empty name, and the stable
sort preserves their — differing — input order, so the two canonical
forms differ even though the codec reconstructed the topology and every
branch length exactly. -/
theorem claim_C1_round_trip_at_failing_input :
    (vector2tree
        (tree2vector (.node "" 1
          [.node "" 1 [.node "A" 2 [], .node "B" 2 []],
           .node "" 1 [.node "C" 2 [], .node "D" 2 []]]))
        (some ["A", "B", "C", "D"])).map canonicalPV =
      .ok ("((C:2.0,D:2.0),(A:2.0,B:2.0));") ∧
    canonicalPV (.node "" 1
        [.node "" 1 [.node "A" 2 [], .node "B" 2 []],
         .node "" 1 [.node "C" 2 [], .node "D" 2 []]]) =
      "((A:2.0,B:2.0),(C:2.0,D:2.0));" ∧
    (vector2tree
        (tree2vector (.node "" 1
          [.node "" 1 [.node "A" 2 [], .node "B" 2 []],
           .node "" 1 [.node "C" 2 [], .node "D" 2 []]]))
        (some ["A", "B", "C", "D"])).map canonicalPV ≠
      .ok (canonicalPV (.node "" 1
        [.node "" 1 [.node "A" 2 [], .node "B" 2 []],
         .node "" 1 [.node "C" 2 [], .node "D" 2 []]])) ∧
    (vector2tree
        (tree2vector (.node "" 1
          [.node "" 1 [.node "A" 2 [], .node "B" 2 []],
           .node "" 1 [.node "C" 2 [], .node "D" 2 []]]))
        (some ["A", "B", "C", "D"])).map (fun t => serTree (fullSortPV t)) =
      .ok (serTree (fullSortPV (.node "" 1
        [.node "" 1 [.node "A" 2 [], .node "B" 2 []],
         .node "" 1 [.node "C" 2 [], .node "D" 2 []]]))) := by
  refine ⟨?_, ?_, ?_, ?_⟩
  · with_unfolding_all decide
  · with_unfolding_all decide
  · with_unfolding_all decide
  · with_unfolding_all decide

/-! ## Traversal order in the assignment loop (claim C4)

The decoder's loop writes each visited node's branch length using
`age_anc`, the current cumulative length down to the node's parent — a
quantity that changes as the loop runs.  The lemmas below show the loop
reaches `assignStruct` whenever the visit order is ancestor-first (as
the level order used by the code is), and C4's counterexample shows a
bottom-up order reaches something else. -/

@[simp] theorem zeroDists_node (n d cs) :
    zeroDists (.node n d cs) = .node n 0 (zeroDistsList cs) := by
  rw [zeroDists]

@[simp] theorem zeroDistsList_nil : zeroDistsList [] = [] := by rw [zeroDistsList]

@[simp] theorem zeroDistsList_cons (c cs) :
    zeroDistsList (c :: cs) = zeroDists c :: zeroDistsList cs := by
  rw [zeroDistsList]

theorem zeroDistsList_getElem? (cs : List PhyloTree) :
    ∀ i : ℕ, (zeroDistsList cs)[i]? = (cs[i]?).map zeroDists := by
  induction cs with
  | nil => intro i; simp
  | cons c cs ih => intro i; cases i <;> simp [ih]

@[simp] theorem getAt?_nil (t : PhyloTree) : getAt? t [] = some t := by
  cases t; rw [getAt?]

theorem getAt?_cons (n : String) (d : ℚ) (cs : List PhyloTree) (i : ℕ) (p : List ℕ) :
    getAt? (.node n d cs) (i :: p) = (cs[i]?).bind fun c => getAt? c p := by
  rw [getAt?]
  cases cs[i]? <;> simp

theorem getAt?_zeroDists (p : List ℕ) :
    ∀ t : PhyloTree, getAt? (zeroDists t) p = (getAt? t p).map zeroDists := by
  induction p with
  | nil => intro t; simp
  | cons i q ih =>
    intro t
    cases t with
    | node n d cs =>
      rw [zeroDists_node, getAt?_cons, getAt?_cons, zeroDistsList_getElem?]
      cases cs[i]? with
      | none => simp
      | some c => simp [ih]

theorem goList_zeroDistsList (l : List PhyloTree)
    (ih : ∀ c ∈ l, PhyloTree.leafNames (zeroDists c) = PhyloTree.leafNames c) :
    PhyloTree.leafNames.goList (zeroDistsList l) = PhyloTree.leafNames.goList l := by
  induction l with
  | nil => simp
  | cons c cs ihl =>
    rw [zeroDistsList_cons, PhyloTree.leafNames.goList, PhyloTree.leafNames.goList,
      ih c (List.mem_cons_self _ _),
      ihl (fun x hx => ih x (List.mem_cons_of_mem _ hx))]

theorem leafNames_zeroDists : ∀ t : PhyloTree,
    PhyloTree.leafNames (zeroDists t) = PhyloTree.leafNames t := by
  intro t
  induction t using PhyloTree.inductT with
  | _ n d cs ih =>
    cases cs with
    | nil => simp [PhyloTree.leafNames]
    | cons c cs' =>
      rw [zeroDists_node, zeroDistsList_cons, PhyloTree.leafNames, PhyloTree.leafNames]
      exact goList_zeroDistsList (c :: cs') ih

theorem nodeHeight_congr {t1 t2 : PhyloTree} (D : String → String → ℚ)
    (h : zeroDists t1 = zeroDists t2) : nodeHeight D t1 = nodeHeight D t2 := by
  rw [nodeHeight, nodeHeight, ← leafNames_zeroDists t1, ← leafNames_zeroDists t2, h]

theorem map_zeroDists_getAt?_congr {t1 t2 : PhyloTree} (p : List ℕ)
    (h : zeroDists t1 = zeroDists t2) :
    Option.map zeroDists (getAt? t1 p) = Option.map zeroDists (getAt? t2 p) := by
  rw [← getAt?_zeroDists, ← getAt?_zeroDists, h]

theorem hAt_congr {t1 t2 : PhyloTree} (D : String → String → ℚ) (p : List ℕ)
    (h : zeroDists t1 = zeroDists t2) : hAt D t1 p = hAt D t2 p := by
  rw [hAt, hAt]
  have heq := map_zeroDists_getAt?_congr p h
  cases e1 : getAt? t1 p <;> cases e2 : getAt? t2 p <;> rw [e1, e2] at heq <;>
    first
      | rfl
      | exact nodeHeight_congr D (by simpa using heq)
      | simp_all

theorem isSome_getAt?_congr {t1 t2 : PhyloTree} (p : List ℕ)
    (h : zeroDists t1 = zeroDists t2) :
    (getAt? t1 p).isSome = (getAt? t2 p).isSome := by
  have heq := map_zeroDists_getAt?_congr p h
  cases e1 : getAt? t1 p <;> cases e2 : getAt? t2 p <;>
    rw [e1, e2] at heq <;> simp_all

theorem setDistList_getElem? :
    ∀ (cs : List PhyloTree) (i : ℕ) (p : List ℕ) (d : ℚ) (j : ℕ),
      (setDistList cs i p d)[j]? =
        if j = i then (cs[j]?).map (fun c => setDistAt c p d) else cs[j]? := by
  intro cs
  induction cs with
  | nil => intro i p d j; rw [setDistList]; simp
  | cons c cs ih =>
    intro i p d j
    cases i with
    | zero =>
      rw [setDistList]
      cases j with
      | zero => simp
      | succ j' => simp
    | succ i' =>
      rw [setDistList]
      cases j with
      | zero => simp
      | succ j' => simpa using ih i' p d j'

theorem zeroDists_setDistAt :
    ∀ (p : List ℕ) (t : PhyloTree) (d : ℚ),
      zeroDists (setDistAt t p d) = zeroDists t := by
  intro p
  induction p with
  | nil =>
    intro t d
    cases t with
    | node n d0 cs => rw [setDistAt]; simp
  | cons i q ih =>
    intro t d
    cases t with
    | node n d0 cs =>
      rw [setDistAt, zeroDists_node, zeroDists_node]
      congr 1
      have : ∀ (cs : List PhyloTree) (i : ℕ),
          zeroDistsList (setDistList cs i q d) = zeroDistsList cs := by
        intro cs'
        induction cs' with
        | nil => intro i'; rw [setDistList]
        | cons c cs'' ihl =>
          intro i'
          cases i' with
          | zero => rw [setDistList]; simp [ih]
          | succ i'' => rw [setDistList]; simp [ihl]
      exact this cs i

theorem dist_getAt?_setDistAt :
    ∀ (p₀ : List ℕ) (t : PhyloTree) (d : ℚ) (p : List ℕ),
      (getAt? (setDistAt t p₀ d) p).map PhyloTree.dist =
        (getAt? t p).map (fun s => if p = p₀ then d else s.dist) := by
  intro p₀
  induction p₀ with
  | nil =>
    intro t d p
    cases t with
    | node n d0 cs =>
      rw [setDistAt]
      cases p with
      | nil => simp
      | cons j r =>
        rw [PhyloTree.withDist]
        simp only [PhyloTree.name_node, PhyloTree.children_node]
        rw [getAt?_cons, getAt?_cons]
        cases cs[j]? with
        | none => simp
        | some c => simp
  | cons i q ih =>
    intro t d p
    cases t with
    | node n d0 cs =>
      rw [setDistAt]
      cases p with
      | nil => simp
      | cons j r =>
        rw [getAt?_cons, getAt?_cons, setDistList_getElem?]
        by_cases hji : j = i
        · subst hji
          rw [if_pos rfl]
          cases e : cs[j]? with
          | none => simp
          | some c =>
            show Option.map PhyloTree.dist (getAt? (setDistAt c q d) r) =
              Option.map (fun s => if j :: r = j :: q then d else s.dist) (getAt? c r)
            rw [ih c d r]
            by_cases hrq : r = q
            · simp [hrq]
            · simp [hrq]
        · rw [if_neg hji]
          have : (j :: r ≠ i :: q) := by simp [hji]
          cases cs[j]? with
          | none => simp
          | some c => simp [this]

theorem getAt?_append (r s : List ℕ) :
    ∀ t : PhyloTree, getAt? t (r ++ s) = (getAt? t r).bind fun u => getAt? u s := by
  induction r with
  | nil => intro t; simp
  | cons i q ih =>
    intro t
    cases t with
    | node n d cs =>
      rw [List.cons_append, getAt?_cons, getAt?_cons]
      cases cs[i]? with
      | none => simp
      | some c => simp [ih]

theorem isSome_getAt?_of_prefix {t : PhyloTree} {r p : List ℕ}
    (hpre : r <+: p) (hs : (getAt? t p).isSome) : (getAt? t r).isSome := by
  obtain ⟨s, rfl⟩ := hpre
  rw [getAt?_append] at hs
  cases e : getAt? t r with
  | none => rw [e] at hs; simp at hs
  | some u => simp

theorem distToAt_snoc :
    ∀ (p : List ℕ) (t : PhyloTree) (s : PhyloTree),
      p ≠ [] → getAt? t p = some s →
      distToAt t p = distToAt t p.dropLast + s.dist := by
  intro p
  induction p with
  | nil => intro t s h; exact absurd rfl h
  | cons i q ih =>
    intro t s _ hget
    cases t with
    | node n d cs =>
      rw [getAt?_cons] at hget
      cases e : cs[i]? with
      | none => rw [e] at hget; simp at hget
      | some c =>
        rw [e] at hget
        simp only [Option.some_bind] at hget
        by_cases hq : q = []
        · subst hq
          simp only [getAt?_nil, Option.some.injEq] at hget
          subst hget
          simp [distToAt, e]
        · have hdl : (i :: q).dropLast = i :: q.dropLast := by
            cases q with
            | nil => exact absurd rfl hq
            | cons a b => rfl
          rw [hdl]
          simp only [distToAt, e]
          rw [ih c s hq hget]
          ring

/-- The value `age_anc` reaches once every (strict, non-root) ancestor
of `q` carries its final branch length: the telescoping sum
`root_age - node_height(q)`. -/
theorem distToAt_of_final (D : String → String → ℚ) (ra : ℚ) (t0 : PhyloTree) :
    ∀ (k : ℕ) (q : List ℕ) (cur : PhyloTree), q.length = k → q ≠ [] →
      (∀ r : List ℕ, r ≠ [] → r <+: q →
        ∃ s, getAt? cur r = some s ∧ s.dist = finalDist D ra t0 r) →
      distToAt cur q = ra - hAt D t0 q := by
  intro k
  induction k using Nat.strong_induction_on with
  | _ k ihk =>
    intro q cur hlen hne hfin
    obtain ⟨s, hget, hdist⟩ := hfin q hne (List.prefix_refl q)
    rw [distToAt_snoc q cur s hne hget, hdist, finalDist]
    by_cases hdl : q.dropLast = []
    · rw [if_pos hdl, hdl]
      rw [distToAt]
      · ring
    · rw [if_neg hdl]
      have hlt : q.dropLast.length < k := by
        rw [← hlen, List.length_dropLast]
        have : 0 < q.length := List.length_pos.2 hne
        omega
      rw [ihk q.dropLast.length hlt q.dropLast cur rfl hdl
        (fun r hr hpre => hfin r hr (hpre.trans (List.dropLast_prefix q)))]
      ring

theorem mem_descPathsList :
    ∀ (cs : List PhyloTree) (k : ℕ) (p : List ℕ),
      p ∈ descPathsList k cs ↔
        ∃ (j : ℕ) (q : List ℕ) (c : PhyloTree), p = (k + j) :: q ∧
          cs[j]? = some c ∧ (q = [] ∨ q ∈ descPaths c) := by
  intro cs
  induction cs with
  | nil =>
    intro k p
    rw [descPathsList]
    simp
  | cons c cs ih =>
    intro k p
    rw [descPathsList]
    simp only [List.mem_append, List.mem_cons, List.mem_map]
    constructor
    · rintro ((rfl | ⟨q, hq, rfl⟩) | hrest)
      · exact ⟨0, [], c, by simp, by simp, Or.inl rfl⟩
      · exact ⟨0, q, c, by simp, by simp, Or.inr hq⟩
      · obtain ⟨j, q, c', hp, hg, hd⟩ := (ih (k + 1) p).1 hrest
        refine ⟨j + 1, q, c', ?_, by simpa using hg, hd⟩
        rw [hp]
        congr 1
        omega
    · rintro ⟨j, q, c', hp, hg, hd⟩
      cases j with
      | zero =>
        simp only [List.getElem?_cons_zero, Option.some.injEq] at hg
        subst hg
        rcases hd with rfl | hd
        · exact Or.inl (Or.inl (by simpa using hp))
        · exact Or.inl (Or.inr ⟨q, hd, by simpa using hp.symm⟩)
      | succ j' =>
        refine Or.inr ((ih (k + 1) p).2 ⟨j', q, c', ?_, by simpa using hg, hd⟩)
        rw [hp]
        congr 1
        omega

theorem mem_descPaths_iff :
    ∀ (t : PhyloTree) (p : List ℕ),
      p ∈ descPaths t ↔ p ≠ [] ∧ (getAt? t p).isSome := by
  intro t
  induction t using PhyloTree.inductT with
  | _ n d cs ih =>
    intro p
    rw [descPaths, mem_descPathsList]
    cases p with
    | nil => simp
    | cons j q =>
      simp only [ne_eq, reduceCtorEq, not_false_iff, true_and, getAt?_cons]
      constructor
      · rintro ⟨j', q', c, hp, hg, hd⟩
        obtain ⟨rfl, rfl⟩ : j = j' ∧ q = q' := by
          constructor
          · injection hp with h1 _; omega
          · injection hp
        rw [hg]
        rcases hd with rfl | hd
        · simp
        · have hc : c ∈ cs := List.getElem?_mem hg
          have := ((ih c hc q).1 hd).2
          simpa using this
      · intro hs
        cases e : cs[j]? with
        | none => rw [e] at hs; simp at hs
        | some c =>
          rw [e] at hs
          simp only [Option.some_bind] at hs
          refine ⟨j, q, c, by simp, e, ?_⟩
          by_cases hq : q = []
          · exact Or.inl hq
          · exact Or.inr ((ih c (List.getElem?_mem e) q).2 ⟨hq, hs⟩)

theorem eq_of_zeroDists_of_dists_list :
    ∀ cs1 cs2 : List PhyloTree,
      (∀ c ∈ cs1, ∀ t2 : PhyloTree, zeroDists c = zeroDists t2 →
        (∀ p : List ℕ, (getAt? c p).map PhyloTree.dist = (getAt? t2 p).map PhyloTree.dist) →
        c = t2) →
      zeroDistsList cs1 = zeroDistsList cs2 →
      (∀ (j : ℕ) (p : List ℕ),
        ((cs1[j]?).bind (fun c => getAt? c p)).map PhyloTree.dist =
        ((cs2[j]?).bind (fun c => getAt? c p)).map PhyloTree.dist) →
      cs1 = cs2 := by
  intro cs1
  induction cs1 with
  | nil =>
    intro cs2 _ hz _
    cases cs2 with
    | nil => rfl
    | cons _ _ => rw [zeroDistsList_nil, zeroDistsList_cons] at hz; exact absurd hz (by simp)
  | cons c1 r1 ihl =>
    intro cs2 ih hz hd
    cases cs2 with
    | nil => rw [zeroDistsList_nil, zeroDistsList_cons] at hz; exact absurd hz (by simp)
    | cons c2 r2 =>
      rw [zeroDistsList_cons, zeroDistsList_cons] at hz
      injection hz with hzh hzt
      have hhead : c1 = c2 :=
        ih c1 (List.mem_cons_self _ _) c2 hzh (fun p => by simpa using hd 0 p)
      have htail : r1 = r2 :=
        ihl r2 (fun c hc => ih c (List.mem_cons_of_mem _ hc)) hzt
          (fun j p => by simpa using hd (j + 1) p)
      rw [hhead, htail]

theorem eq_of_zeroDists_of_dists :
    ∀ t1 t2 : PhyloTree, zeroDists t1 = zeroDists t2 →
      (∀ p : List ℕ,
        (getAt? t1 p).map PhyloTree.dist = (getAt? t2 p).map PhyloTree.dist) →
      t1 = t2 := by
  intro t1
  induction t1 using PhyloTree.inductT with
  | _ n d cs ih =>
    intro t2 hz hd
    cases t2 with
    | node n2 d2 cs2 =>
      rw [zeroDists_node, zeroDists_node] at hz
      injection hz with hn _ hcs
      have hdroot := hd []
      simp at hdroot
      have : cs = cs2 :=
        eq_of_zeroDists_of_dists_list cs cs2 ih hcs
          (fun j p => by
            have := hd (j :: p)
            rwa [getAt?_cons, getAt?_cons] at this)
      rw [hn, this, hdroot]

theorem assignStruct_node (D : String → String → ℚ) (ra a : ℚ) (n : String)
    (d : ℚ) (cs : List PhyloTree) :
    assignStruct D ra a (.node n d cs) = .node n d (assignStructList D ra a cs) := by
  cases cs with
  | nil => rw [assignStruct, assignStructList]
  | cons c cs' => rw [assignStruct]

theorem assignStructList_getElem? (D : String → String → ℚ) (ra : ℚ) :
    ∀ (cs : List PhyloTree) (a : ℚ) (j : ℕ),
      (assignStructList D ra a cs)[j]? = (cs[j]?).map fun c =>
        (assignStruct D ra (ra - nodeHeight D c) c).withDist
          ((ra - nodeHeight D c) - a) := by
  intro cs
  induction cs with
  | nil => intro a j; rw [assignStructList]; simp
  | cons c cs' ih =>
    intro a j
    rw [assignStructList]
    cases j with
    | zero => simp
    | succ j' => simpa using ih a j'

theorem zeroDists_withDist (t : PhyloTree) (v : ℚ) :
    zeroDists (t.withDist v) = zeroDists t := by
  cases t with
  | node n d cs => rw [PhyloTree.withDist]; simp

theorem getAt?_withDist (t : PhyloTree) (v : ℚ) (i : ℕ) (q : List ℕ) :
    getAt? (t.withDist v) (i :: q) = getAt? t (i :: q) := by
  cases t with
  | node n d cs => rw [PhyloTree.withDist]; simp [getAt?_cons]

theorem getAt?_withDist_ne_nil (t : PhyloTree) (v : ℚ) {q : List ℕ} (hq : q ≠ []) :
    getAt? (t.withDist v) q = getAt? t q := by
  cases q with
  | nil => exact absurd rfl hq
  | cons i r => exact getAt?_withDist t v i r

theorem zeroDists_assignStruct (D : String → String → ℚ) (ra : ℚ) :
    ∀ (t : PhyloTree) (a : ℚ), zeroDists (assignStruct D ra a t) = zeroDists t := by
  intro t
  induction t using PhyloTree.inductT with
  | _ n d cs ih =>
    intro a
    rw [assignStruct_node, zeroDists_node, zeroDists_node]
    congr 1
    have : ∀ cs' : List PhyloTree,
        (∀ c ∈ cs', ∀ a', zeroDists (assignStruct D ra a' c) = zeroDists c) →
        zeroDistsList (assignStructList D ra a cs') = zeroDistsList cs' := by
      intro cs'
      induction cs' with
      | nil => intro _; rw [assignStructList]
      | cons c rest ihl =>
        intro hm
        rw [assignStructList, zeroDistsList_cons, zeroDistsList_cons,
          zeroDists_withDist, hm c (List.mem_cons_self _ _),
          ihl (fun x hx a' => hm x (List.mem_cons_of_mem _ hx) a')]
    exact this cs ih

theorem hAt_cons (D : String → String → ℚ) (n : String) (d : ℚ)
    (cs : List PhyloTree) (i : ℕ) (q : List ℕ) {c : PhyloTree}
    (e : cs[i]? = some c) : hAt D (.node n d cs) (i :: q) = hAt D c q := by
  rw [hAt, hAt, getAt?_cons, e]
  rfl

/-- The distances `assignStruct` writes, node by node. -/
theorem dist_getAt?_assignStruct (D : String → String → ℚ) (ra : ℚ) :
    ∀ (p : List ℕ) (t : PhyloTree) (a : ℚ), p ≠ [] →
      (getAt? (assignStruct D ra a t) p).map PhyloTree.dist =
        (getAt? t p).map fun _ =>
          (ra - hAt D t p) - (if p.dropLast = [] then a else ra - hAt D t p.dropLast) := by
  intro p
  induction p with
  | nil => intro t a h; exact absurd rfl h
  | cons i q ih =>
    intro t a _
    cases t with
    | node n d cs =>
      rw [assignStruct_node, getAt?_cons, getAt?_cons, assignStructList_getElem?]
      cases e : cs[i]? with
      | none => simp
      | some c =>
        have h1 : hAt D (.node n d cs) [i] = nodeHeight D c := by
          rw [hAt, getAt?_cons, e]
          simp
        show (getAt? ((assignStruct D ra (ra - nodeHeight D c) c).withDist
            ((ra - nodeHeight D c) - a)) q).map PhyloTree.dist =
          Option.map (fun _ => (ra - hAt D (.node n d cs) (i :: q)) -
            (if (i :: q).dropLast = [] then a
             else ra - hAt D (.node n d cs) (i :: q).dropLast))
            (getAt? c q)
        by_cases hq : q = []
        · subst hq
          simp only [getAt?_nil, List.dropLast_single]
          cases hx : (assignStruct D ra (ra - nodeHeight D c) c) with
          | node nc dc csc =>
            rw [PhyloTree.withDist]
            simp [h1]
        · have hdl : (i :: q).dropLast = i :: q.dropLast := by
            cases q with
            | nil => exact absurd rfl hq
            | cons _ _ => rfl
          rw [getAt?_withDist_ne_nil _ _ hq, ih c (ra - nodeHeight D c) hq]
          refine Option.map_congr (fun s _ => ?_)
          have hne : (i :: q.dropLast : List ℕ) ≠ [] := by simp
          rw [hdl, hAt_cons D n d cs i q e, if_neg hne]
          by_cases hdq : q.dropLast = []
          · rw [if_pos hdq, hdq, h1]
          · rw [if_neg hdq, hAt_cons D n d cs i q.dropLast e]

@[simp] theorem distToAt_nil (t : PhyloTree) : distToAt t [] = 0 := by
  cases t; rw [distToAt]

@[simp] theorem visitAssign_nil (D : String → String → ℚ) (ra : ℚ) (cur : PhyloTree) :
    visitAssign D ra [] cur = cur := rfl

theorem visitAssign_cons (D : String → String → ℚ) (ra : ℚ) (p : List ℕ)
    (rest : List (List ℕ)) (cur : PhyloTree) :
    visitAssign D ra (p :: rest) cur = visitAssign D ra rest (visitStep D ra cur p) := rfl

/-- The loop invariant: after an ancestor-first process of the paths in
`done`, the tree agrees with the input everywhere except that each node
of `done` carries its final branch length; folding the remaining steps
completes the assignment. -/
theorem visitAssign_invariant (D : String → String → ℚ) (ra : ℚ) (t0 : PhyloTree) :
    ∀ (remaining done : List (List ℕ)) (cur : PhyloTree),
      (done ++ remaining).Perm (descPaths t0) →
      ancestorFirst (done ++ remaining) →
      zeroDists cur = zeroDists t0 →
      (∀ p : List ℕ, (getAt? cur p).map PhyloTree.dist =
        (getAt? t0 p).map (fun s => if p ∈ done then finalDist D ra t0 p else s.dist)) →
      zeroDists (visitAssign D ra remaining cur) = zeroDists t0 ∧
      (∀ p : List ℕ, (getAt? (visitAssign D ra remaining cur) p).map PhyloTree.dist =
        (getAt? t0 p).map
          (fun s => if p ∈ done ++ remaining then finalDist D ra t0 p else s.dist)) := by
  intro remaining
  induction remaining with
  | nil =>
    intro done cur _ _ hskel hinv
    rw [visitAssign_nil]
    exact ⟨hskel, by simpa using hinv⟩
  | cons p rest ih =>
    intro done cur hperm hanc hskel hinv
    have hpmem : p ∈ descPaths t0 := hperm.mem_iff.1 (by simp)
    have hpne : p ≠ [] := ((mem_descPaths_iff t0 p).1 hpmem).1
    have hpval : (getAt? t0 p).isSome := ((mem_descPaths_iff t0 p).1 hpmem).2
    have hcval : (getAt? cur p).isSome := by rw [isSome_getAt?_congr p hskel]; exact hpval
    obtain ⟨sub, hsub⟩ := Option.isSome_iff_exists.1 hcval
    -- every strict non-root ancestor of p is already in done
    have hanch : ∀ r : List ℕ, r ≠ [] → r <+: p → r ≠ p → r ∈ done := by
      intro r hrne hrpre hrnp
      have hrval : (getAt? t0 r).isSome := isSome_getAt?_of_prefix hrpre hpval
      have hrmem : r ∈ done ++ p :: rest :=
        hperm.mem_iff.2 ((mem_descPaths_iff t0 r).2 ⟨hrne, hrval⟩)
      rcases List.mem_append.1 hrmem with h | h
      · exact h
      · rcases List.mem_cons.1 h with h | h
        · exact absurd h hrnp
        · exfalso
          have hpair : (p :: rest).Pairwise fun a b => ¬(b ≠ a ∧ b <+: a) :=
            hanc.sublist (List.sublist_append_right done (p :: rest))
          exact (List.pairwise_cons.1 hpair).1 r h ⟨hrnp, hrpre⟩
    -- the value the step writes is the final one
    have hheight : nodeHeight D sub = hAt D t0 p := by
      have : hAt D cur p = nodeHeight D sub := by rw [hAt, hsub]
      rw [← this]
      exact hAt_congr D p hskel
    have hage : distToAt cur p.dropLast =
        if p.dropLast = [] then 0 else ra - hAt D t0 p.dropLast := by
      by_cases hdl : p.dropLast = []
      · rw [if_pos hdl, hdl, distToAt_nil]
      · rw [if_neg hdl]
        refine distToAt_of_final D ra t0 p.dropLast.length p.dropLast cur rfl hdl ?_
        intro r hrne hrpre
        have hrpre' : r <+: p := hrpre.trans (List.dropLast_prefix p)
        have hrnp : r ≠ p := by
          intro h
          subst h
          have h1 := hrpre.length_le
          rw [List.length_dropLast] at h1
          have h2 : 0 < r.length := List.length_pos.2 hrne
          omega
        have hrdone : r ∈ done := hanch r hrne hrpre' hrnp
        have hrval : (getAt? t0 r).isSome := isSome_getAt?_of_prefix hrpre' hpval
        obtain ⟨w, hw⟩ := Option.isSome_iff_exists.1 hrval
        have := hinv r
        rw [hw] at this
        simp only [Option.map_some'] at this
        rw [if_pos hrdone] at this
        cases ecur : getAt? cur r with
        | none => rw [ecur] at this; simp at this
        | some s' =>
          rw [ecur] at this
          simp only [Option.map_some'] at this
          exact ⟨s', rfl, Option.some.inj this⟩
    have hval : (ra - nodeHeight D sub) - distToAt cur p.dropLast =
        finalDist D ra t0 p := by
      rw [hheight, hage, finalDist]
    have hstep : visitStep D ra cur p = setDistAt cur p (finalDist D ra t0 p) := by
      simp only [visitStep, hsub, hval]
    rw [visitAssign_cons, hstep]
    have hre : (done ++ [p]) ++ rest = done ++ p :: rest := by simp
    have hnext :=
      ih (done ++ [p]) (setDistAt cur p (finalDist D ra t0 p))
        (by rw [hre]; exact hperm)
        (by rw [hre]; exact hanc)
        (by rw [zeroDists_setDistAt]; exact hskel)
        (by
          intro q
          rw [dist_getAt?_setDistAt]
          by_cases hqp : q = p
          · subst hqp
            rw [hsub]
            obtain ⟨w, hw⟩ := Option.isSome_iff_exists.1 hpval
            rw [hw]
            simp [List.mem_append]
          · have := hinv q
            cases e0 : getAt? t0 q with
            | none =>
              have : (getAt? cur q).isSome = false := by
                rw [isSome_getAt?_congr q hskel, e0]
                rfl
              cases ecur : getAt? cur q with
              | none => simp
              | some _ => rw [ecur] at this; simp at this
            | some w =>
              have hc := hinv q
              rw [e0] at hc
              cases ecur : getAt? cur q with
              | none => rw [ecur] at hc; simp at hc
              | some s' =>
                rw [ecur] at hc
                simp only [Option.map_some'] at hc ⊢
                have hsd := Option.some.inj hc
                rw [if_neg hqp, hsd]
                by_cases hqd : q ∈ done
                · rw [if_pos hqd, if_pos (List.mem_append_left _ hqd)]
                · rw [if_neg hqd, if_neg (by simp [hqd, hqp])])
    refine ⟨hnext.1, fun q => ?_⟩
    rw [hnext.2 q]
    simp only [hre]

/-- Any ancestor-first complete visit order drives the loop to the
structural assignment. -/
theorem visitAssign_eq_assignStruct (D : String → String → ℚ) (ra : ℚ)
    (t : PhyloTree) (order : List (List ℕ))
    (hp : order.Perm (descPaths t)) (ha : ancestorFirst order) :
    visitAssign D ra order t = assignStruct D ra 0 t := by
  obtain ⟨hz, hd⟩ :=
    visitAssign_invariant D ra t order [] t (by simpa using hp) (by simpa using ha)
      rfl (by intro p; simp)
  apply eq_of_zeroDists_of_dists
  · rw [hz, zeroDists_assignStruct]
  · intro p
    rw [hd p]
    simp only [List.nil_append]
    by_cases hp0 : p = []
    · subst hp0
      have hnm : ([] : List ℕ) ∉ order := by
        intro hmem
        exact ((mem_descPaths_iff t []).1 (hp.mem_iff.1 hmem)).1 rfl
      simp only [getAt?_nil, Option.map_some']
      rw [if_neg hnm]
      cases t with
      | node n d cs =>
        rw [assignStruct_node]
        simp
    · cases e : getAt? t p with
      | none =>
        have hno : p ∉ order := by
          intro hmem
          have := ((mem_descPaths_iff t p).1 (hp.mem_iff.1 hmem)).2
          rw [e] at this
          exact absurd this (by simp)
        have : (getAt? (assignStruct D ra 0 t) p).isSome = false := by
          rw [isSome_getAt?_congr p (zeroDists_assignStruct D ra t 0), e]
          rfl
        cases e2 : getAt? (assignStruct D ra 0 t) p with
        | none => simp
        | some _ => rw [e2] at this; simp at this
      | some s =>
        have hyes : p ∈ order :=
          hp.mem_iff.2 ((mem_descPaths_iff t p).2 ⟨hp0, by rw [e]; rfl⟩)
        rw [dist_getAt?_assignStruct D ra p t 0 hp0, e]
        simp only [Option.map_some']
        rw [if_pos hyes, finalDist]

/-- C4 (amended).  Traversal-order independence among ancestor-first
orders: for every pairwise-height map, root age and tree skeleton, any
two complete visit orders that list every non-root node and visit
parents before their descendants (as the level order used by the code
does) produce the same assigned tree.  (The unrestricted claim is false:
see the counterexample, where a bottom-up order reads `age_anc` off a
not-yet-assigned parent.) -/
theorem claim_C4_traversal_order (D : String → String → ℚ) (ra : ℚ)
    (t : PhyloTree) (o1 o2 : List (List ℕ))
    (h1p : o1.Perm (descPaths t)) (h1a : ancestorFirst o1)
    (h2p : o2.Perm (descPaths t)) (h2a : ancestorFirst o2) :
    visitAssign D ra o1 t = visitAssign D ra o2 t := by
  rw [visitAssign_eq_assignStruct D ra t o1 h1p h1a,
    visitAssign_eq_assignStruct D ra t o2 h2p h2a]

/-- C4 witness: the amended theorem at a concrete 3-leaf skeleton, the
level order against the preorder (both ancestor-first). -/
theorem claim_C4_traversal_order_witness :
    visitAssign (fun _ _ => (0 : ℚ)) 0 [[0], [1], [0, 0], [0, 1]]
        (.node "" 1 [.node "" 1 [.node "A" 1 [], .node "B" 1 []], .node "C" 2 []]) =
      visitAssign (fun _ _ => (0 : ℚ)) 0 [[0], [0, 0], [0, 1], [1]]
        (.node "" 1 [.node "" 1 [.node "A" 1 [], .node "B" 1 []], .node "C" 2 []]) :=
  claim_C4_traversal_order (fun _ _ => (0 : ℚ)) 0
    (.node "" 1 [.node "" 1 [.node "A" 1 [], .node "B" 1 []], .node "C" 2 []])
    [[0], [1], [0, 0], [0, 1]] [[0], [0, 0], [0, 1], [1]]
    (by with_unfolding_all decide) (by decide)
    (by with_unfolding_all decide) (by decide)

/-- C4 counterexample to the unrestricted claim: decoding the valid
vector `[0,0,0,1,5,5]` over leaves `A,B,C`, the assignment loop run in
the bottom-up order `[[0,0],[0],[1],[0,1]]` (a permutation of the
non-root nodes, but visiting leaf `A` before its parent) produces a
different tree from the code's level order: `age_anc` for `A` is read
off the parent's not-yet-assigned branch length. -/
theorem claim_C4_traversal_order_counterexample :
    let v : List ℚ := [0, 0, 0, 1, 5, 5]
    let leaves := ["A", "B", "C"]
    let assoc := leafDistances leaves (v.drop 3)
    let D := lookupD assoc
    let chain := buildChain D leaves
    let skel := pathgraph2tree chain.1 chain.2
    let ra := maxQ (assoc.map Prod.snd)
    levelPaths skel = [[0], [1], [0, 0], [0, 1]] ∧
    ([[0, 0], [0], [1], [0, 1]] : List (List ℕ)).Perm (descPaths skel) ∧
    visitAssign D ra [[0, 0], [0], [1], [0, 1]] skel ≠
      visitAssign D ra (levelPaths skel) skel := by
  refine ⟨?_, ?_, ?_⟩
  · with_unfolding_all decide
  · with_unfolding_all decide
  · with_unfolding_all decide

/-! ## The chain builder produces a Hamiltonian path (claim C5) -/

theorem chainGo_map_fst_perm (D : String → String → ℚ) :
    ∀ (k : ℕ) (rem : List String) (cur : String), rem.length = k →
      ((chainGo D cur rem).map Prod.fst).Perm rem := by
  intro k
  induction k using Nat.strong_induction_on with
  | _ k ihk =>
    intro rem cur hlen
    cases rem with
    | nil => rw [chainGo]; rfl
    | cons r rs =>
      rw [chainGo]
      have hmem : (selectNext D cur (r :: rs)).1 ∈ r :: rs :=
        selectNext_mem D cur (by simp)
      have hlt : ((r :: rs).erase (selectNext D cur (r :: rs)).1).length < k := by
        rw [List.length_erase_of_mem hmem, ← hlen]
        simp
      have ih := ihk _ hlt ((r :: rs).erase (selectNext D cur (r :: rs)).1)
        (selectNext D cur (r :: rs)).1 rfl
      simp only [List.map_cons]
      exact ((ih.cons _).trans (List.perm_cons_erase hmem).symm)

@[simp] theorem pathEdges_nil : pathEdges [] = [] := rfl

@[simp] theorem pathEdges_single (a : String) : pathEdges [a] = [] := rfl

@[simp] theorem pathEdges_cons₂ (a b : String) (l : List String) :
    pathEdges (a :: b :: l) = (a, b) :: pathEdges (b :: l) := rfl

theorem length_pathEdges : ∀ chain : List String,
    (pathEdges chain).length = chain.length - 1 := by
  intro chain
  rw [pathEdges, List.length_zip, List.length_tail]
  omega

theorem degree_eq_zero_of_not_mem :
    ∀ (chain : List String) (v : String), v ∉ chain →
      degree (pathEdges chain) v = 0 := by
  intro chain
  induction chain with
  | nil => intro v _; rfl
  | cons a l ih =>
    intro v hv
    cases l with
    | nil => rfl
    | cons b l' =>
      rw [pathEdges_cons₂, degree, List.countP_cons]
      have hva : v ≠ a := by intro h; exact hv (h ▸ List.mem_cons_self _ _)
      have hvb : v ≠ b := by
        intro h
        exact hv (h ▸ List.mem_cons_of_mem _ (List.mem_cons_self _ _))
      have h0 : degree (pathEdges (b :: l')) v = 0 :=
        ih v (fun h => hv (List.mem_cons_of_mem _ h))
      rw [degree] at h0
      rw [h0]
      simp [hva.symm, hvb.symm]

theorem degree_head_le_one :
    ∀ (l : List String) (v : String), v ∉ l →
      degree (pathEdges (v :: l)) v ≤ 1 := by
  intro l v hv
  cases l with
  | nil => simp [degree]
  | cons b l' =>
    rw [pathEdges_cons₂, degree, List.countP_cons]
    have h0 : degree (pathEdges (b :: l')) v = 0 := degree_eq_zero_of_not_mem _ v hv
    rw [degree] at h0
    rw [h0]
    simp

theorem degree_le_two :
    ∀ (chain : List String), chain.Nodup → ∀ v, degree (pathEdges chain) v ≤ 2 := by
  intro chain
  induction chain with
  | nil => intro _ v; simp [degree]
  | cons a l ih =>
    intro hnd v
    cases l with
    | nil => simp [degree]
    | cons b l' =>
      rw [pathEdges_cons₂, degree, List.countP_cons]
      have hnd' : (b :: l').Nodup := hnd.of_cons
      have hanb : a ∉ b :: l' := (List.nodup_cons.1 hnd).1
      by_cases hva : v = a
      · subst hva
        have h0 : degree (pathEdges (b :: l')) v = 0 :=
          degree_eq_zero_of_not_mem _ v hanb
        rw [degree] at h0
        rw [h0]
        simp
      · by_cases hvb : v = b
        · subst hvb
          have h1 : degree (pathEdges (v :: l')) v ≤ 1 :=
            degree_head_le_one l' v (List.nodup_cons.1 hnd').1
          rw [degree] at h1
          split <;> omega
        · have h2 := ih hnd' v
          rw [degree] at h2
          simp only [beq_iff_eq]
          rw [if_neg (by simp [Ne.symm hva, Ne.symm hvb])]
          omega

theorem adj_symm {E : List (String × String)} {u v : String} (h : Adj E u v) :
    Adj E v u := h.symm

theorem reach_symm {E : List (String × String)} {u v : String}
    (h : Reach E u v) : Reach E v u :=
  Relation.ReflTransGen.symmetric (fun _ _ ha => adj_symm ha) h

theorem reach_mono {E E' : List (String × String)} (hsub : ∀ e ∈ E, e ∈ E')
    {u v : String} (h : Reach E u v) : Reach E' u v :=
  Relation.ReflTransGen.mono
    (fun a b hab => hab.imp (fun x => hsub _ x) (fun x => hsub _ x)) h

theorem head_reach :
    ∀ (l : List String) (a v : String), v ∈ a :: l →
      Reach (pathEdges (a :: l)) a v := by
  intro l
  induction l with
  | nil =>
    intro a v hv
    obtain rfl : v = a := by simpa using hv
    exact Relation.ReflTransGen.refl
  | cons b l' ih =>
    intro a v hv
    rcases List.mem_cons.1 hv with rfl | hv'
    · exact Relation.ReflTransGen.refl
    · have hstep : Reach (pathEdges (a :: b :: l')) a b :=
        Relation.ReflTransGen.single (Or.inl (by simp))
      have htail : Reach (pathEdges (b :: l')) b v := ih b v hv'
      exact hstep.trans (reach_mono (fun e he => by simp [he]) htail)

theorem chain_connected (chain : List String) (hne : chain ≠ [])
    {u v : String} (hu : u ∈ chain) (hv : v ∈ chain) :
    Reach (pathEdges chain) u v := by
  cases chain with
  | nil => exact absurd rfl hne
  | cons a l =>
    exact (reach_symm (head_reach l a u hu)).trans (head_reach l a v hv)

/-- C5.  Chain Builder postcondition: for distinct leaves (`n ≥ 2`) and
any pairwise-height map, the greedy chain is a permutation of the leaf
set without repetitions, carries exactly `n - 1` edges (as weights and as
consecutive vertex pairs), every vertex has degree at most 2, and every
pair of leaves is connected — a single connected path covering all
leaves. -/
theorem claim_C5_chain_builder (D : String → String → ℚ) (leaves : List String)
    (hnd : leaves.Nodup) (h2 : 2 ≤ leaves.length) :
    ((buildChain D leaves).1).Perm leaves ∧
    ((buildChain D leaves).1).Nodup ∧
    ((buildChain D leaves).2).length = leaves.length - 1 ∧
    (pathEdges (buildChain D leaves).1).length = leaves.length - 1 ∧
    (∀ v ∈ leaves, degree (pathEdges (buildChain D leaves).1) v ≤ 2) ∧
    (∀ u ∈ leaves, ∀ v ∈ leaves, Reach (pathEdges (buildChain D leaves).1) u v) := by
  have hne : leaves ≠ [] := by intro h; rw [h] at h2; simp at h2
  obtain ⟨last, hlast⟩ : ∃ x, leaves.getLast? = some x :=
    Option.isSome_iff_exists.1 (List.getLast?_isSome.2 hne)
  have hlast2 : leaves.getLast hne = last := by
    rw [List.getLast?_eq_getLast leaves hne] at hlast
    exact Option.some.inj hlast
  have hsplit : leaves.dropLast ++ [last] = leaves := by
    rw [← hlast2]
    exact List.dropLast_append_getLast hne
  have hchain : (buildChain D leaves).1 =
      last :: (chainGo D last leaves.dropLast).map Prod.fst := by
    rw [buildChain, hlast]
  have hw : (buildChain D leaves).2 =
      (chainGo D last leaves.dropLast).map Prod.snd := by
    rw [buildChain, hlast]
  have hpermDrop : ((chainGo D last leaves.dropLast).map Prod.fst).Perm
      leaves.dropLast :=
    chainGo_map_fst_perm D leaves.dropLast.length leaves.dropLast last rfl
  have hperm : ((buildChain D leaves).1).Perm leaves := by
    rw [hchain]
    have hstep : (last :: leaves.dropLast).Perm leaves := by
      have h1 := (List.perm_append_singleton last leaves.dropLast).symm
      rwa [hsplit] at h1
    exact (hpermDrop.cons last).trans hstep
  have hndchain : ((buildChain D leaves).1).Nodup := (hperm.nodup_iff).2 hnd
  have hlen : ((buildChain D leaves).1).length = leaves.length := hperm.length_eq
  refine ⟨hperm, hndchain, ?_, ?_, ?_, ?_⟩
  · rw [hw, List.length_map, ← List.length_map (chainGo D last leaves.dropLast) Prod.fst,
      hpermDrop.length_eq, List.length_dropLast]
  · rw [length_pathEdges, hlen]
  · intro v _
    exact degree_le_two _ hndchain v
  · intro u hu v hv
    refine chain_connected _ ?_ (hperm.mem_iff.2 hu) (hperm.mem_iff.2 hv)
    intro h0
    rw [h0] at hlen
    simp at hlen
    omega

/-- C5 witness: the chain-builder postcondition at three concrete
leaves. -/
theorem claim_C5_chain_builder_witness :
    ((buildChain (fun _ _ => (0 : ℚ)) ["A", "B", "C"]).1).Perm ["A", "B", "C"] ∧
    ((buildChain (fun _ _ => (0 : ℚ)) ["A", "B", "C"]).1).Nodup ∧
    ((buildChain (fun _ _ => (0 : ℚ)) ["A", "B", "C"]).2).length =
      (["A", "B", "C"] : List String).length - 1 ∧
    (pathEdges (buildChain (fun _ _ => (0 : ℚ)) ["A", "B", "C"]).1).length =
      (["A", "B", "C"] : List String).length - 1 ∧
    (∀ v ∈ (["A", "B", "C"] : List String),
      degree (pathEdges (buildChain (fun _ _ => (0 : ℚ)) ["A", "B", "C"]).1) v ≤ 2) ∧
    (∀ u ∈ (["A", "B", "C"] : List String), ∀ v ∈ (["A", "B", "C"] : List String),
      Reach (pathEdges (buildChain (fun _ _ => (0 : ℚ)) ["A", "B", "C"]).1) u v) :=
  claim_C5_chain_builder (fun _ _ => (0 : ℚ)) ["A", "B", "C"]
    (by decide) (by decide)

/-! ## The topology builder (claim C6)

`pathgraph2tree` on a path with at least two vertices never leaves a
node with exactly one child, and with at least two edges it always
splits the path at the first maximum-weight edge into exactly two
connected components, recursing on each. -/

@[simp] theorem std_leafNode (n : String) (d : ℚ) :
    PhyloTree.std (.node n d []) = .node n d [] := by
  rw [PhyloTree.std, PhyloTree.std.stdList]
  simp

@[simp] theorem stdList_nil : PhyloTree.std.stdList [] = [] := by
  rw [PhyloTree.std.stdList]

@[simp] theorem stdList_cons (c : PhyloTree) (cs : List PhyloTree) :
    PhyloTree.std.stdList (c :: cs) =
      PhyloTree.std c :: PhyloTree.std.stdList cs := by
  rw [PhyloTree.std.stdList]

theorem std_node (n : String) (d : ℚ) (cs : List PhyloTree) :
    PhyloTree.std (.node n d cs) =
      .node n d
        (((PhyloTree.std.stdList cs).filter fun c => c.children.length != 1) ++
         (((PhyloTree.std.stdList cs).filter fun c => c.children.length == 1).map
           PhyloTree.unwrapSingle)) := by
  rw [PhyloTree.std]

theorem noSingleB_node (n : String) (d : ℚ) (cs : List PhyloTree) :
    noSingleB (.node n d cs) = ((cs.length != 1) && noSingleList cs) := by
  rw [noSingleB]

theorem noSingleList_iff :
    ∀ cs : List PhyloTree, noSingleList cs = true ↔ ∀ c ∈ cs, noSingleB c = true := by
  intro cs
  induction cs with
  | nil => simp [noSingleList]
  | cons c cs ih =>
    rw [noSingleList, Bool.and_eq_true, ih]
    constructor
    · rintro ⟨h1, h2⟩ x hx
      rcases List.mem_cons.1 hx with rfl | hx'
      · exact h1
      · exact h2 x hx'
    · intro h
      exact ⟨h c (List.mem_cons_self _ _), fun x hx => h x (List.mem_cons_of_mem _ hx)⟩

theorem children_length_ne_one_of_noSingleB {t : PhyloTree}
    (h : noSingleB t = true) : t.children.length ≠ 1 := by
  cases t with
  | node n d cs =>
    rw [noSingleB_node, Bool.and_eq_true] at h
    simpa using h.1

theorem std_of_noSingleB : ∀ t : PhyloTree, noSingleB t = true →
    PhyloTree.std t = t := by
  intro t
  induction t using PhyloTree.inductT with
  | _ n d cs ih =>
    intro h
    rw [noSingleB_node, Bool.and_eq_true] at h
    have hall := (noSingleList_iff cs).1 h.2
    have hstdList : PhyloTree.std.stdList cs = cs := by
      clear h
      induction cs with
      | nil => simp
      | cons c cs' ihl =>
        rw [stdList_cons, ih c (List.mem_cons_self _ _) (hall c (List.mem_cons_self _ _)),
          ihl (fun x hx hx2 => ih x (List.mem_cons_of_mem _ hx) hx2)
            (fun x hx => hall x (List.mem_cons_of_mem _ hx))]
    rw [std_node, hstdList]
    have hkeep : (cs.filter fun c => c.children.length != 1) = cs :=
      List.filter_eq_self.2 (fun c hc => by
        simpa using children_length_ne_one_of_noSingleB (hall c hc))
    have hmove : (cs.filter fun c => c.children.length == 1) = [] :=
      List.filter_eq_nil.2 (fun c hc => by
        simpa using children_length_ne_one_of_noSingleB (hall c hc))
    rw [hkeep, hmove]
    simp

theorem pathgraph2tree_base (chain : List String) (ws : List ℚ)
    (h : ws.length ≤ 1) :
    pathgraph2tree chain ws =
      PhyloTree.std (.node "" PhyloTree.defaultDist
        (chain.map fun v => .node v PhyloTree.defaultDist [])) := by
  rw [pathgraph2tree, dif_pos h]

theorem pathgraph2tree_rec (chain : List String) (ws : List ℚ)
    (h : ¬ ws.length ≤ 1) :
    pathgraph2tree chain ws =
      PhyloTree.std (.node "" PhyloTree.defaultDist
        [pathgraph2tree (chain.take (maxWIdx ws + 1)) (ws.take (maxWIdx ws)),
         pathgraph2tree (chain.drop (maxWIdx ws + 1)) (ws.drop (maxWIdx ws + 1))]) := by
  rw [pathgraph2tree, dif_neg h]

theorem noSingleB_leaf (x : String) (d : ℚ) : noSingleB (.node x d []) = true := by
  rw [noSingleB_node, noSingleList]
  simp

theorem stdList_map_leaf (chain : List String) (d : ℚ) :
    PhyloTree.std.stdList (chain.map fun v => .node v d []) =
      chain.map fun v => .node v d [] := by
  induction chain with
  | nil => simp
  | cons a l ih => simp [ih]

theorem std_base_node (chain : List String) (d : ℚ) :
    PhyloTree.std (.node "" d (chain.map fun v => .node v d [])) =
      .node "" d (chain.map fun v => .node v d []) := by
  rw [std_node, stdList_map_leaf]
  have hkeep : ((chain.map fun v => PhyloTree.node v d []).filter
      fun c => c.children.length != 1) = chain.map fun v => .node v d [] :=
    List.filter_eq_self.2 (fun c hc => by
      obtain ⟨v, _, rfl⟩ := List.mem_map.1 hc
      simp)
  have hmove : ((chain.map fun v => PhyloTree.node v d []).filter
      fun c => c.children.length == 1) = [] :=
    List.filter_eq_nil.2 (fun c hc => by
      obtain ⟨v, _, rfl⟩ := List.mem_map.1 hc
      simp)
  rw [hkeep, hmove]
  simp

theorem noSingleB_base (chain : List String) (d : ℚ) (h2 : 2 ≤ chain.length) :
    noSingleB (.node "" d (chain.map fun v => .node v d [])) = true := by
  rw [noSingleB_node, Bool.and_eq_true]
  constructor
  · simp only [List.length_map, ne_eq, bne_iff_ne]
    omega
  · rw [noSingleList_iff]
    intro c hc
    obtain ⟨v, _, rfl⟩ := List.mem_map.1 hc
    exact noSingleB_leaf v d

theorem std_wrapper_leaf (nm x : String) (dm dx : ℚ) :
    PhyloTree.std (.node nm dm [.node x dx []]) = .node nm dm [.node x dx []] := by
  rw [std_node, stdList_cons, stdList_nil, std_leafNode]
  simp

theorem unwrapSingle_wrapper (nm x : String) (dm dx : ℚ) :
    PhyloTree.unwrapSingle (.node nm dm [.node x dx []]) = .node x (dx + dm) [] := by
  rw [PhyloTree.unwrapSingle]

theorem pathgraph2tree_shape :
    ∀ (k : ℕ) (chain : List String) (ws : List ℚ), ws.length = k →
      ws.length + 1 = chain.length →
      (2 ≤ chain.length → noSingleB (pathgraph2tree chain ws) = true) ∧
      (∀ x, chain = [x] →
        pathgraph2tree chain ws =
          .node "" PhyloTree.defaultDist [.node x PhyloTree.defaultDist []]) := by
  intro k
  induction k using Nat.strong_induction_on with
  | _ k ihk =>
    intro chain ws hk hlen
    by_cases hb : ws.length ≤ 1
    · rw [pathgraph2tree_base chain ws hb]
      constructor
      · intro h2
        rw [std_base_node]
        exact noSingleB_base chain _ h2
      · intro x hx
        subst hx
        simp only [List.map_cons, List.map_nil]
        exact std_wrapper_leaf "" x PhyloTree.defaultDist PhyloTree.defaultDist
    · have h2ws : 2 ≤ ws.length := by omega
      have hwne : ws ≠ [] := by intro h; rw [h] at h2ws; simp at h2ws
      have hilt : maxWIdx ws < ws.length := maxWIdx_lt hwne
      rw [pathgraph2tree_rec chain ws hb]
      have hltake : (ws.take (maxWIdx ws)).length = maxWIdx ws := by
        rw [List.length_take]
        omega
      have hctake : (chain.take (maxWIdx ws + 1)).length = maxWIdx ws + 1 := by
        rw [List.length_take]
        omega
      have hldrop : (ws.drop (maxWIdx ws + 1)).length =
          ws.length - maxWIdx ws - 1 := by
        rw [List.length_drop]
        omega
      have hcdrop : (chain.drop (maxWIdx ws + 1)).length =
          ws.length - maxWIdx ws := by
        rw [List.length_drop]
        omega
      have ihL := ihk (maxWIdx ws) (by omega)
        (chain.take (maxWIdx ws + 1)) (ws.take (maxWIdx ws)) hltake
        (by rw [hltake, hctake])
      have ihR := ihk (ws.length - maxWIdx ws - 1) (by omega)
        (chain.drop (maxWIdx ws + 1)) (ws.drop (maxWIdx ws + 1)) hldrop
        (by rw [hldrop, hcdrop]; omega)
      constructor
      swap
      · intro x hx
        rw [hx] at hlen
        simp only [List.length_cons, List.length_nil] at hlen
        omega
      intro _
      by_cases hzero : maxWIdx ws = 0
      · -- left component is a single vertex: collapsed into the parent
        obtain ⟨x, hx⟩ : ∃ x, chain.take (maxWIdx ws + 1) = [x] := by
          rw [hzero]
          cases chain with
          | nil => simp at hlen
          | cons a l => exact ⟨a, by simp⟩
        have hL := ihL.2 x hx
        have hRn : noSingleB (pathgraph2tree (chain.drop (maxWIdx ws + 1))
            (ws.drop (maxWIdx ws + 1))) = true := ihR.1 (by omega)
        rw [std_node, stdList_cons, stdList_cons, stdList_nil, hL,
          std_wrapper_leaf, std_of_noSingleB _ hRn]
        have hRne := children_length_ne_one_of_noSingleB hRn
        rw [List.filter_cons_of_neg (by simp),
          List.filter_cons_of_pos (by simpa using hRne),
          List.filter_cons_of_pos (by simp),
          List.filter_cons_of_neg (by simpa using hRne)]
        simp only [List.filter_nil, List.map_cons, List.map_nil,
          unwrapSingle_wrapper]
        rw [noSingleB_node, Bool.and_eq_true, noSingleList_iff]
        refine ⟨by simp, ?_⟩
        intro c hc
        rcases List.mem_append.1 hc with h | h
        · rw [List.mem_singleton.1 h]
          exact hRn
        · rw [List.mem_singleton.1 h]
          exact noSingleB_leaf _ _
      · by_cases hlast : maxWIdx ws = ws.length - 1
        · -- right component is a single vertex: collapsed into the parent
          obtain ⟨y, hy⟩ : ∃ y, chain.drop (maxWIdx ws + 1) = [y] := by
            have h1 : (chain.drop (maxWIdx ws + 1)).length = 1 := by
              rw [hcdrop, hlast]
              omega
            cases hd : chain.drop (maxWIdx ws + 1) with
            | nil => rw [hd] at h1; simp at h1
            | cons a l =>
              rw [hd] at h1
              cases l with
              | nil => exact ⟨a, rfl⟩
              | cons b l' => simp at h1
          have hR := ihR.2 y hy
          have hLn : noSingleB (pathgraph2tree (chain.take (maxWIdx ws + 1))
              (ws.take (maxWIdx ws))) = true := ihL.1 (by omega)
          rw [std_node, stdList_cons, stdList_cons, stdList_nil, hR,
            std_wrapper_leaf, std_of_noSingleB _ hLn]
          have hLne := children_length_ne_one_of_noSingleB hLn
          rw [List.filter_cons_of_pos (by simpa using hLne),
            List.filter_cons_of_neg (by simp),
            List.filter_cons_of_neg (by simpa using hLne),
            List.filter_cons_of_pos (by simp)]
          simp only [List.filter_nil, List.map_cons, List.map_nil,
            unwrapSingle_wrapper]
          rw [noSingleB_node, Bool.and_eq_true, noSingleList_iff]
          refine ⟨by simp, ?_⟩
          intro c hc
          rcases List.mem_append.1 hc with h | h
          · rw [List.mem_singleton.1 h]
            exact hLn
          · rw [List.mem_singleton.1 h]
            exact noSingleB_leaf _ _
        · -- both components have at least two vertices
          have hLn : noSingleB (pathgraph2tree (chain.take (maxWIdx ws + 1))
              (ws.take (maxWIdx ws))) = true := ihL.1 (by omega)
          have hRn : noSingleB (pathgraph2tree (chain.drop (maxWIdx ws + 1))
              (ws.drop (maxWIdx ws + 1))) = true := ihR.1 (by omega)
          rw [std_node, stdList_cons, stdList_cons, stdList_nil,
            std_of_noSingleB _ hLn, std_of_noSingleB _ hRn]
          have hLne := children_length_ne_one_of_noSingleB hLn
          have hRne := children_length_ne_one_of_noSingleB hRn
          rw [List.filter_cons_of_pos (by simpa using hLne),
            List.filter_cons_of_pos (by simpa using hRne),
            List.filter_cons_of_neg (by simpa using hLne),
            List.filter_cons_of_neg (by simpa using hRne)]
          simp only [List.filter_nil, List.map_nil]
          rw [noSingleB_node, Bool.and_eq_true, noSingleList_iff]
          refine ⟨by simp, ?_⟩
          intro c hc
          rcases List.mem_append.1 hc with h | h
          · rcases List.mem_cons.1 h with rfl | h2
            · exact hLn
            · rw [List.mem_singleton.1 h2]
              exact hRn
          · simp at h

theorem pathEdges_eraseIdx_split :
    ∀ (i : ℕ) (chain : List String), i + 1 < chain.length →
      (pathEdges chain).eraseIdx i =
        pathEdges (chain.take (i + 1)) ++ pathEdges (chain.drop (i + 1)) := by
  intro i
  induction i with
  | zero =>
    intro chain h
    match chain, h with
    | a :: b :: l, _ =>
      simp only [List.eraseIdx]
      rfl
  | succ i' ih =>
    intro chain h
    match chain, h with
    | a :: b :: l, h =>
      have hlt : i' + 1 < (b :: l).length := by
        simp only [List.length_cons] at h ⊢
        omega
      have e1 : (pathEdges (a :: b :: l)).eraseIdx (i' + 1) =
          (a, b) :: (pathEdges (b :: l)).eraseIdx i' := by
        rw [pathEdges_cons₂]
        rfl
      rw [e1, ih (b :: l) hlt]
      have e4 : (b :: l).take (i' + 1) = b :: l.take i' := rfl
      show _ = pathEdges (a :: (b :: l).take (i' + 1)) ++ _
      rw [e4, pathEdges_cons₂, ← e4]
      rfl

theorem mem_pathEdges_endpoints {chain : List String} {e : String × String}
    (h : e ∈ pathEdges chain) : e.1 ∈ chain ∧ e.2 ∈ chain := by
  rw [pathEdges] at h
  cases e with
  | mk x y =>
    obtain ⟨h1, h2⟩ := List.of_mem_zip h
    exact ⟨h1, List.mem_of_mem_tail h2⟩

theorem reach_split_stays {V1 V2 : List String}
    (hdisj : ∀ x, x ∈ V1 → x ∈ V2 → False) {u v : String}
    (h : Reach (pathEdges V1 ++ pathEdges V2) u v) (hu : u ∈ V1) : v ∈ V1 := by
  induction h with
  | refl => exact hu
  | tail _ hadj ih =>
    rcases hadj with he | he <;> rcases List.mem_append.1 he with h1 | h1
    · exact (mem_pathEdges_endpoints h1).2
    · exact absurd ((mem_pathEdges_endpoints h1).1) (fun hm => hdisj _ ih hm)
    · exact (mem_pathEdges_endpoints h1).1
    · exact absurd ((mem_pathEdges_endpoints h1).2) (fun hm => hdisj _ ih hm)

/-- C6.  Topology Builder: on a path with at least two vertices the
returned tree has no node — the root included — with exactly one child
(single-child chains are collapsed); and with at least two edges the
builder removes the first edge of maximum weight, which splits the path
into exactly two connected components — the prefix and the suffix, a
partition of the vertices, each internally connected and with no
connection across — and recurses on each as a child subtree. -/
theorem claim_C6_topology_builder (chain : List String) (ws : List ℚ)
    (hnd : chain.Nodup) (hlen : ws.length + 1 = chain.length)
    (h2 : 2 ≤ chain.length) :
    noSingleB (pathgraph2tree chain ws) = true ∧
    (2 ≤ ws.length →
      pathgraph2tree chain ws =
        PhyloTree.std (.node "" PhyloTree.defaultDist
          [pathgraph2tree (chain.take (maxWIdx ws + 1)) (ws.take (maxWIdx ws)),
           pathgraph2tree (chain.drop (maxWIdx ws + 1)) (ws.drop (maxWIdx ws + 1))]) ∧
      (pathEdges chain).eraseIdx (maxWIdx ws) =
        pathEdges (chain.take (maxWIdx ws + 1)) ++
          pathEdges (chain.drop (maxWIdx ws + 1)) ∧
      chain.take (maxWIdx ws + 1) ++ chain.drop (maxWIdx ws + 1) = chain ∧
      chain.take (maxWIdx ws + 1) ≠ [] ∧
      chain.drop (maxWIdx ws + 1) ≠ [] ∧
      (∀ u ∈ chain.take (maxWIdx ws + 1), ∀ v ∈ chain.take (maxWIdx ws + 1),
        Reach ((pathEdges chain).eraseIdx (maxWIdx ws)) u v) ∧
      (∀ u ∈ chain.drop (maxWIdx ws + 1), ∀ v ∈ chain.drop (maxWIdx ws + 1),
        Reach ((pathEdges chain).eraseIdx (maxWIdx ws)) u v) ∧
      (∀ u ∈ chain.take (maxWIdx ws + 1), ∀ v ∈ chain.drop (maxWIdx ws + 1),
        ¬ Reach ((pathEdges chain).eraseIdx (maxWIdx ws)) u v)) := by
  constructor
  · exact (pathgraph2tree_shape ws.length chain ws rfl hlen).1 h2
  · intro h2w
    have hwne : ws ≠ [] := by intro h; rw [h] at h2w; simp at h2w
    have hilt : maxWIdx ws < ws.length := maxWIdx_lt hwne
    have hsplitlt : maxWIdx ws + 1 < chain.length := by omega
    have hsplitE := pathEdges_eraseIdx_split (maxWIdx ws) chain hsplitlt
    have hpart : chain.take (maxWIdx ws + 1) ++ chain.drop (maxWIdx ws + 1) = chain :=
      List.take_append_drop _ chain
    have hndsplit := hnd
    rw [← hpart, List.nodup_append] at hndsplit
    have hdisj : ∀ x, x ∈ chain.take (maxWIdx ws + 1) →
        x ∈ chain.drop (maxWIdx ws + 1) → False :=
      fun x hx1 hx2 => hndsplit.2.2 hx1 hx2
    have htne : chain.take (maxWIdx ws + 1) ≠ [] := by
      intro h
      have hl := congrArg List.length h
      rw [List.length_take, Nat.min_eq_left (by omega)] at hl
      simp only [List.length_nil] at hl
      omega
    have hdne : chain.drop (maxWIdx ws + 1) ≠ [] := by
      intro h
      have hl := congrArg List.length h
      rw [List.length_drop] at hl
      simp only [List.length_nil] at hl
      omega
    refine ⟨pathgraph2tree_rec chain ws (by omega), hsplitE, hpart, htne, hdne,
      ?_, ?_, ?_⟩
    · intro u hu v hv
      rw [hsplitE]
      exact reach_mono (fun e he => List.mem_append_left _ he)
        (chain_connected _ htne hu hv)
    · intro u hu v hv
      rw [hsplitE]
      exact reach_mono (fun e he => List.mem_append_right _ he)
        (chain_connected _ hdne hu hv)
    · intro u hu v hv hreach
      rw [hsplitE] at hreach
      exact hdisj v (reach_split_stays hdisj hreach hu) hv

/-- C6 witness: the topology-builder contract at a concrete 3-vertex
path with weights `[1, 2]` (maximum edge index 1). -/
theorem claim_C6_topology_builder_witness :
    noSingleB (pathgraph2tree ["A", "B", "C"] [1, 2]) = true ∧
    (2 ≤ ([1, 2] : List ℚ).length →
      pathgraph2tree ["A", "B", "C"] [1, 2] =
        PhyloTree.std (.node "" PhyloTree.defaultDist
          [pathgraph2tree ((["A", "B", "C"] : List String).take (maxWIdx [1, 2] + 1))
            (([1, 2] : List ℚ).take (maxWIdx [1, 2])),
           pathgraph2tree ((["A", "B", "C"] : List String).drop (maxWIdx [1, 2] + 1))
            (([1, 2] : List ℚ).drop (maxWIdx [1, 2] + 1))]) ∧
      (pathEdges ["A", "B", "C"]).eraseIdx (maxWIdx [1, 2]) =
        pathEdges ((["A", "B", "C"] : List String).take (maxWIdx [1, 2] + 1)) ++
          pathEdges ((["A", "B", "C"] : List String).drop (maxWIdx [1, 2] + 1)) ∧
      (["A", "B", "C"] : List String).take (maxWIdx [1, 2] + 1) ++
        (["A", "B", "C"] : List String).drop (maxWIdx [1, 2] + 1) = ["A", "B", "C"] ∧
      (["A", "B", "C"] : List String).take (maxWIdx [1, 2] + 1) ≠ [] ∧
      (["A", "B", "C"] : List String).drop (maxWIdx [1, 2] + 1) ≠ [] ∧
      (∀ u ∈ (["A", "B", "C"] : List String).take (maxWIdx [1, 2] + 1),
        ∀ v ∈ (["A", "B", "C"] : List String).take (maxWIdx [1, 2] + 1),
        Reach ((pathEdges ["A", "B", "C"]).eraseIdx (maxWIdx [1, 2])) u v) ∧
      (∀ u ∈ (["A", "B", "C"] : List String).drop (maxWIdx [1, 2] + 1),
        ∀ v ∈ (["A", "B", "C"] : List String).drop (maxWIdx [1, 2] + 1),
        Reach ((pathEdges ["A", "B", "C"]).eraseIdx (maxWIdx [1, 2])) u v) ∧
      (∀ u ∈ (["A", "B", "C"] : List String).take (maxWIdx [1, 2] + 1),
        ∀ v ∈ (["A", "B", "C"] : List String).drop (maxWIdx [1, 2] + 1),
        ¬ Reach ((pathEdges ["A", "B", "C"]).eraseIdx (maxWIdx [1, 2])) u v)) :=
  claim_C6_topology_builder ["A", "B", "C"] [1, 2] (by decide) (by decide) (by decide)

/-- C7 witness: the universally quantified part applied at the concrete
two-leaf tree and its zero entry. -/
theorem claim_C7_epsilon_snapping_witness :
    (0 : ℚ) ∈ tree2vector (.node "" 0
      [.node "A" 1 [], .node "B" (1 - 1 / 1000000000) []]) ∧ (0 : ℚ) = 0 :=
  ⟨by rw [claim_C7_epsilon_snapping.2]; simp,
   claim_C7_epsilon_snapping.1
     (.node "" 0 [.node "A" 1 [], .node "B" (1 - 1 / 1000000000) []]) 0
     (by rw [claim_C7_epsilon_snapping.2]; simp)
     (by norm_num [epsDefault])⟩

/-! ## Canonical-Newick invariance under child order (claim C8) -/

theorem mysortList_eq_map : ∀ cs : List PNode, mysortList cs = cs.map mysort
  | [] => rfl
  | c :: cs => by rw [mysortList, mysortList_eq_map cs, List.map_cons]

theorem normPList_eq_map : ∀ cs : List PNode, normPList cs = cs.map normP
  | [] => rfl
  | c :: cs => by rw [normPList, normPList_eq_map cs, List.map_cons]

theorem myoutList_eq_map : ∀ cs : List PNode, myoutList cs = cs.map myout
  | [] => rfl
  | c :: cs => by rw [myoutList, myoutList_eq_map cs, List.map_cons]

theorem name_mysort (c : PNode) : (mysort c).name = c.name := by
  cases c
  rw [mysort, PNode.name_mk, PNode.name_mk]

theorem name_normP (c : PNode) : (normP c).name = c.name := by
  cases c
  rw [normP, PNode.name_mk, PNode.name_mk]

theorem childNamesNodupAll_iff :
    ∀ cs : List PNode,
      childNamesNodupAll cs = true ↔ ∀ c ∈ cs, childNamesNodupB c = true := by
  intro cs
  induction cs with
  | nil => simp [childNamesNodupAll]
  | cons c cs ih =>
    rw [childNamesNodupAll, Bool.and_eq_true, ih]
    constructor
    · rintro ⟨h1, h2⟩ x hx
      rcases List.mem_cons.1 hx with rfl | hx
      · exact h1
      · exact h2 x hx
    · intro h
      exact ⟨h c (List.mem_cons_self _ _), fun x hx => h x (List.mem_cons_of_mem _ hx)⟩

theorem myout_mk (i : ℤ) (n : String) (l : Option ℚ) (p : ℤ) (cs : List PNode) :
    myout (.mk i n l p cs) =
      if cs.isEmpty then n ++ (":") ++ pyLenStr l
      else ("(") ++ String.intercalate (",") (myoutList cs) ++ (")") := by
  cases cs <;> rw [myout] <;> rfl

theorem boolEqOfIff {a b : Bool} (h : a = true ↔ b = true) : a = b := by
  cases a <;> cases b <;> simp_all

theorem map_name_normPList (cs : List PNode) :
    (normPList cs).map PNode.name = cs.map PNode.name := by
  rw [normPList_eq_map, List.map_map]
  exact List.map_congr_left fun c _ => name_normP c

/-- The sorted, normalized child list of `normP` carries the same
multiset of names as the original children. -/
theorem normP_children_names_perm (cs : List PNode) :
    List.Perm
      (((normPList cs).insertionSort fun a b => serP a ≤ serP b).map PNode.name)
      (cs.map PNode.name) := by
  have h1 := (List.perm_insertionSort (fun a b : PNode => serP a ≤ serP b)
    (normPList cs)).map PNode.name
  rw [map_name_normPList] at h1
  exact h1

theorem childNamesNodupB_normP :
    ∀ p : PNode, childNamesNodupB (normP p) = childNamesNodupB p := by
  intro p
  induction p using PNode.inductP with
  | _ i n l pid cs ih =>
    rw [normP, childNamesNodupB, childNamesNodupB]
    congr 1
    · exact decide_eq_decide.mpr (normP_children_names_perm cs).nodup_iff
    · apply boolEqOfIff
      rw [childNamesNodupAll_iff, childNamesNodupAll_iff]
      have hmem : ∀ c : PNode,
          (c ∈ (normPList cs).insertionSort fun a b => serP a ≤ serP b) ↔
            c ∈ cs.map normP := by
        intro c
        rw [(List.perm_insertionSort _ _).mem_iff, normPList_eq_map]
      constructor
      · intro h d hd
        rw [← ih d hd]
        exact h (normP d) ((hmem (normP d)).2 (List.mem_map_of_mem _ hd))
      · intro h c hc
        rcases List.mem_map.1 ((hmem c).1 hc) with ⟨d, hd, rfl⟩
        rw [ih d hd]
        exact h d hd

/-- Sorting by name alone determines the serialized output whenever the
names are pairwise distinct: two child lists with the same multiset of
`(name, output)` pairs print identically after `sorted`. -/
theorem sortByName_out_eq (A B : List PNode)
    (hperm : List.Perm (A.map fun c => (c.name, myout c))
      (B.map fun c => (c.name, myout c)))
    (hnod : (A.map PNode.name).Nodup) :
    (sortByName A).map myout = (sortByName B).map myout := by
  have hmapfst : ∀ L : List PNode,
      (L.map fun c => (c.name, myout c)).map Prod.fst = L.map PNode.name := by
    intro L
    rw [List.map_map]
    rfl
  have hnodB : (B.map PNode.name).Nodup := by
    have h := (hperm.map Prod.fst).nodup_iff
    rw [hmapfst, hmapfst] at h
    exact h.1 hnod
  have hsorted : ∀ L : List PNode, (L.map PNode.name).Nodup →
      List.Pairwise (fun x y : String × String => x.1 < y.1)
        ((sortByName L).map fun c => (c.name, myout c)) := by
    intro L hL
    have hs : List.Sorted (fun a b : PNode => a.name ≤ b.name) (sortByName L) := by
      haveI : IsTotal PNode (fun a b : PNode => a.name ≤ b.name) :=
        ⟨fun a b => le_total a.name b.name⟩
      haveI : IsTrans PNode (fun a b : PNode => a.name ≤ b.name) :=
        ⟨fun _ _ _ h1 h2 => le_trans h1 h2⟩
      exact List.sorted_insertionSort _ L
    have hle : List.Pairwise (fun x y : String × String => x.1 ≤ y.1)
        ((sortByName L).map fun c => (c.name, myout c)) := by
      rw [List.pairwise_map]
      exact hs
    have hnodL : ((sortByName L).map PNode.name).Nodup := by
      have hp := (List.perm_insertionSort
        (fun a b : PNode => a.name ≤ b.name) L).map PNode.name
      exact hp.nodup_iff.2 hL
    have hne : List.Pairwise (fun x y : String × String => x.1 ≠ y.1)
        ((sortByName L).map fun c => (c.name, myout c)) := by
      rw [List.pairwise_map]
      exact List.pairwise_map.mp hnodL
    refine (hle.and hne).imp ?_
    intro a b hab
    exact lt_of_le_of_ne hab.1 hab.2
  have hchain : List.Perm ((sortByName A).map fun c => (c.name, myout c))
      ((sortByName B).map fun c => (c.name, myout c)) := by
    have h1 := (List.perm_insertionSort
      (fun a b : PNode => a.name ≤ b.name) A).map fun c => (c.name, myout c)
    have h2 := (List.perm_insertionSort
      (fun a b : PNode => a.name ≤ b.name) B).map fun c => (c.name, myout c)
    exact h1.trans (hperm.trans h2.symm)
  haveI : IsAntisymm (String × String) (fun x y => x.1 < y.1) :=
    ⟨fun a b hab hba => absurd hba (lt_asymm hab)⟩
  have heq : ((sortByName A).map fun c => (c.name, myout c)) =
      ((sortByName B).map fun c => (c.name, myout c)) :=
    List.eq_of_perm_of_sorted hchain (hsorted A hnod) (hsorted B hnodB)
  have hsnd := congrArg (List.map Prod.snd) heq
  rw [List.map_map, List.map_map] at hsnd
  exact hsnd

theorem myout_eq_of_out_lists (i i' p p' : ℤ) (n : String) (l : Option ℚ)
    (cs cs' : List PNode) (hlen : cs.length = cs'.length)
    (hout : myoutList cs = myoutList cs') :
    myout (.mk i n l p cs) = myout (.mk i' n l p' cs') := by
  cases cs with
  | nil =>
    cases cs' with
    | nil => rw [myout, myout]
    | cons c cs' => simp at hlen
  | cons c cs0 =>
    cases cs' with
    | nil => simp at hlen
    | cons c' cs0' => rw [myout, myout, hout]

/-- Key lemma for C8: when every node's children have pairwise-distinct
names, `myout ∘ mysort` only depends on the tree up to recursively
permuting children — it agrees on the canonical representative. -/
theorem myout_mysort_normP :
    ∀ p : PNode, childNamesNodupB p = true →
      myout (mysort p) = myout (mysort (normP p)) := by
  intro p
  induction p using PNode.inductP with
  | _ i n l pid cs ih =>
    intro hnd
    rw [childNamesNodupB, Bool.and_eq_true, decide_eq_true_eq,
      childNamesNodupAll_iff] at hnd
    obtain ⟨hnodup, hall⟩ := hnd
    have hperm1 : List.Perm
        ((normPList cs).insertionSort fun a b => serP a ≤ serP b)
        (cs.map normP) := by
      have h := List.perm_insertionSort (fun a b : PNode => serP a ≤ serP b)
        (normPList cs)
      rw [normPList_eq_map] at h ⊢
      exact h
    rw [normP, mysort, mysort]
    apply myout_eq_of_out_lists
    · simp only [sortByName]
      rw [(List.perm_insertionSort _ _).length_eq,
        (List.perm_insertionSort _ _).length_eq, mysortList_eq_map,
        mysortList_eq_map, List.length_map, List.length_map,
        hperm1.length_eq, List.length_map]
    · rw [myoutList_eq_map, myoutList_eq_map]
      apply sortByName_out_eq
      · have e1 : (mysortList cs).map (fun c => (c.name, myout c)) =
            cs.map fun c => (c.name, myout (mysort c)) := by
          rw [mysortList_eq_map, List.map_map]
          refine List.map_congr_left ?_
          intro c _
          show ((mysort c).name, myout (mysort c)) = (c.name, myout (mysort c))
          rw [name_mysort]
        have e2 : List.Perm
            ((mysortList ((normPList cs).insertionSort
              fun a b => serP a ≤ serP b)).map fun c => (c.name, myout c))
            (cs.map fun c => (c.name, myout (mysort c))) := by
          rw [mysortList_eq_map]
          have hp := (hperm1.map mysort).map fun c : PNode => (c.name, myout c)
          refine hp.trans ?_
          rw [List.map_map, List.map_map]
          have he : ∀ c ∈ cs,
              (((fun c : PNode => (c.name, myout c)) ∘ mysort) ∘ normP) c =
                (c.name, myout (mysort c)) := by
            intro c hc
            show ((mysort (normP c)).name, myout (mysort (normP c))) =
              (c.name, myout (mysort c))
            rw [name_mysort, name_normP, ← ih c hc (hall c hc)]
          rw [List.map_congr_left he]
        rw [e1]
        exact e2.symm
      · rw [mysortList_eq_map, List.map_map]
        have he : ∀ c ∈ cs, (PNode.name ∘ mysort) c = PNode.name c := by
          intro c _
          exact name_mysort c
        rw [List.map_congr_left he]
        exact hnodup

/-- C8 counterexample: the strings `((A:1,B:1):1,(C:1,D:1):2);` and
`((C:1,D:1):2,(A:1,B:1):1);` describe the same tree up to permutation of
each node's children (both parse, and their canonical representatives
under `normP` coincide), yet `sorted_newick` canonicalizes them to
different strings: the sort key is only the node's own `name` field,
which is empty on internal nodes, so the stable sort keeps unnamed
internal siblings in their input order. -/
theorem claim_C8_child_order_counterexample :
    (parseNwk ("((A:1,B:1):1,(C:1,D:1):2);")).isSome = true ∧
    (parseNwk ("((A:1,B:1):1,(C:1,D:1):2);")).map normP =
      (parseNwk ("((C:1,D:1):2,(A:1,B:1):1);")).map normP ∧
    sortedNewick ("((A:1,B:1):1,(C:1,D:1):2);") ≠
      sortedNewick ("((C:1,D:1):2,(A:1,B:1):1);") :=
  ⟨by with_unfolding_all decide, by with_unfolding_all decide,
    by with_unfolding_all decide⟩

/-- C8 (amended): canonicalization is invariant under child order on
trees whose sibling names are pairwise distinct at every node: if two
strings parse to the same tree up to recursively permuting each node's
children, and in that tree every node's children carry pairwise-distinct
names, parsing and canonicalizing both yields the identical output
string. -/
theorem claim_C8_canonical_child_order (s1 s2 : String) (p1 p2 : PNode)
    (h1 : parseNwk s1 = some p1) (h2 : parseNwk s2 = some p2)
    (hsame : normP p1 = normP p2) (hnd : childNamesNodupB p1 = true) :
    sortedNewick s1 = sortedNewick s2 := by
  have hnd2 : childNamesNodupB p2 = true := by
    rw [← childNamesNodupB_normP, ← hsame, childNamesNodupB_normP]
    exact hnd
  simp only [sortedNewick, h1, h2]
  rw [myout_mysort_normP p1 hnd, myout_mysort_normP p2 hnd2, hsame]

/-- C8 witness: the amended invariance at the spec's own example pair
`(B:1,A:2);` and `(A:2,B:1);`. -/
theorem claim_C8_canonical_child_order_witness :
    sortedNewick ("(B:1,A:2);") = sortedNewick ("(A:2,B:1);") :=
  claim_C8_canonical_child_order ("(B:1,A:2);") ("(A:2,B:1);")
    (.mk 0 ("") none (-1) [.mk 1 ("B") (some 1) 0 [], .mk 2 ("A") (some 2) 0 []])
    (.mk 0 ("") none (-1) [.mk 1 ("A") (some 2) 0 [], .mk 2 ("B") (some 1) 0 []])
    (by with_unfolding_all decide) (by with_unfolding_all decide)
    (by with_unfolding_all decide) (by with_unfolding_all decide)

end Phylovector
